import Mathlib

/-!
Verification of the streamhub core against its natural-language specification.

The development shallowly embeds the algorithmic core of the repository:

* `parsePlayUrl` — the play-link micro-grammar parser (`src/utils/api.ts`);
* `fetchViaProxy` — the proxy-fallback fetch loop (`src/utils/api.ts`),
  with per-strategy network outcomes supplied as an explicit list;
* `fetchAndCleanM3u8V1` / `fetchAndCleanM3u8V2` — the two copies of the
  HLS playlist sanitizer found in the two player views (`src/unnamed/part_001`
  and `src/unnamed/part_002`), parameterized by the URL-resolution and
  URL-fingerprint primitives (`new URL` in the source);
* `mergeResults` — the aggregate-search merge (`src/unnamed/part_003`);
* `searchStep` — a step relation for the query-cancellation protocol of the
  search view (`src/unnamed/part_003`);
* `runSourceCheck` — the source health scanner of `src/App.tsx`.

Effectful primitives (network fetches, `new URL`) are modelled as explicit
functional parameters (oracles); everything else is translated directly from
the TypeScript source.
-/

set_option maxRecDepth 100000

namespace StreamHub

/-- `strStarts s p` models JavaScript `s.startsWith(p)` (on exact characters). -/
def strStarts (s p : String) : Bool := decide (p.toList <+: s.toList)

/-- `hasSubstr s p` models JavaScript `s.includes(p)`. -/
def hasSubstr (s p : String) : Bool := decide (p.toList <:+: s.toList)

theorem strStarts_iff (s p : String) : strStarts s p ↔ p.toList <+: s.toList := by
  simp [strStarts]

theorem strStarts_trans_of_prefix {s p q : String}
    (hpq : p.toList <+: q.toList) (h : strStarts s q) : strStarts s p := by
  rw [strStarts_iff] at h ⊢
  exact hpq.trans h

/-- ASCII whitespace, the characters stripped by `String.prototype.trim`
on the inputs this code sees. -/
def isWsChar (c : Char) : Bool :=
  c = ' ' || c = '\t' || c = '\n' || c = '\r' || c = '\x0b' || c = '\x0c'

/-- `trimStr` models JavaScript `s.trim()`: strip leading and trailing
whitespace. Implemented structurally over the character list so that it
evaluates inside the kernel. -/
def trimStr (s : String) : String :=
  String.mk (((s.toList.dropWhile isWsChar).reverse.dropWhile isWsChar).reverse)

/-- `lowerStr` models JavaScript `s.toLowerCase()` (ASCII case folding). -/
def lowerStr (s : String) : String :=
  String.mk (s.toList.map Char.toLower)

/-- Structural split of a character list on a non-empty separator,
left-to-right and non-overlapping, with `fuel` bounding the scan
(callers pass the list length, which always suffices). -/
def splitChars (sep : List Char) : Nat → List Char → List (List Char)
  | _, [] => [[]]
  | 0, s => [s]
  | fuel + 1, c :: cs =>
    if sep.isPrefixOf (c :: cs) then
      [] :: splitChars sep fuel ((c :: cs).drop sep.length)
    else
      match splitChars sep fuel cs with
      | [] => [[c]]
      | g :: gs => (c :: g) :: gs

/-- `splitOnStr s sep` models JavaScript `s.split(sep)` for a literal
separator string. -/
def splitOnStr (s sep : String) : List String :=
  if sep = "" then [s]
  else (splitChars sep.toList s.toList.length s.toList).map String.mk

/-- `splitLines` models `content.split(/\r?\n/)`: split on `\n` and strip
one trailing `\r` from every piece that was followed by a `\n`. -/
def splitLines (s : String) : List String :=
  let parts := splitOnStr s "\n"
  parts.enum.map fun p =>
    if p.1 + 1 < parts.length && p.2.toList.getLast? = some '\r' then
      String.mk (p.2.toList.dropLast)
    else p.2

/-! ## Play-link parsing (`parsePlayUrl`, `src/utils/api.ts` lines 469–495)

The play-link string uses quality groups separated by `$$$`, episodes
separated by `#`, and a first-`$` split of an episode into display name
and URL. -/

/-- One parsed episode: display name and playback URL. -/
structure Episode where
  name : String
  url : String
deriving Repr, DecidableEq

/-- Split a string at the first `$` character (JS `indexOf('$')` + `substring`).
Returns `none` when the string has no `$`. -/
def splitAtFirstDollar (s : String) : Option (String × String) :=
  if s.toList.contains '$' then
    some (String.mk (s.toList.takeWhile (· ≠ '$')),
          String.mk ((s.toList.dropWhile (· ≠ '$')).drop 1))
  else none

/-- The name/raw-url pair of one raw episode string, before the `//` upgrade
and the http filter: `trim`, drop empties, split at the first `$`
(an episode with no `$` is all URL, name defaulting to `正片`). -/
def episodeNameUrl (ep : String) : Option (String × String) :=
  let trimmed := trimStr ep
  if trimmed = "" then none
  else
    match splitAtFirstDollar trimmed with
    | some (n, u) => some (n, u)
    | none => some ("正片", trimmed)

/-- Parse one raw episode string: trim the URL and upgrade a
protocol-relative `//` URL to `https:`. -/
def parseEpisode (ep : String) : Option Episode :=
  match episodeNameUrl ep with
  | none => none
  | some (n, u) =>
    let u := trimStr u
    let u := if strStarts u "//" then "https:" ++ u else u
    some ⟨trimStr n, u⟩

/-- The filter applied to parsed episodes in the source:
`!!item.url && (item.url.startsWith('http') || item.url.startsWith('https'))`. -/
def keepEpisode (e : Episode) : Bool :=
  e.url ≠ "" && (strStarts e.url "http" || strStarts e.url "https")

/-- Parse one quality group: split on `#`, parse each episode, keep only
episodes with an http(s) URL. -/
def parseGroup (rawList : String) : List Episode :=
  ((splitOnStr rawList "#").filterMap parseEpisode).filter keepEpisode

/-- `parsePlayUrl` from `src/utils/api.ts`: split into quality groups on
`$$$`, parse each group, and return the first group containing an `.m3u8`
URL, else the first containing an `.mp4` URL, else the first non-empty
group, else the empty list. -/
def parsePlayUrl (urlStr : String) : List Episode :=
  if urlStr = "" then []
  else
    let candidates := (splitOnStr urlStr "$$$").map parseGroup
    match candidates.find? (fun l => l.any fun e => hasSubstr e.url ".m3u8") with
    | some l => l
    | none =>
      match candidates.find? (fun l => l.any fun e => hasSubstr e.url ".mp4") with
      | some l => l
      | none =>
        match candidates.find? (fun l => decide (0 < l.length)) with
        | some l => l
        | none => []

/-! ### Spec-side formulation of the play-link grammar (claim C9)

`parsePlayUrlSpec` restates the parser the way the specification words it:
a two-level delimiter grammar with a priority selection among the parsed
quality groups. It is compared against the source-derived `parsePlayUrl`. -/

/-- Spec wording: parse one episode, keeping it only when its URL, after
trimming and upgrading a leading `//` to `https:`, starts with http/https. -/
def specEpisode (ep : String) : Option Episode :=
  match episodeNameUrl ep with
  | none => none
  | some (n, u) =>
    let u := trimStr u
    let u := if strStarts u "//" then "https:" ++ u else u
    let e : Episode := ⟨trimStr n, u⟩
    if keepEpisode e then some e else none

/-- Spec wording: a quality group is the `#`-separated list of episodes. -/
def specGroup (g : String) : List Episode :=
  (splitOnStr g "#").filterMap specEpisode

/-- Spec wording: the first group one of whose episode URLs satisfies `p`. -/
def specSelectGroup (p : Episode → Bool) : List (List Episode) → Option (List Episode)
  | [] => none
  | g :: gs => if g.any p then some g else specSelectGroup p gs

/-- Spec wording: the first non-empty group. -/
def specFirstNonEmpty : List (List Episode) → Option (List Episode)
  | [] => none
  | g :: gs => if g.isEmpty then specFirstNonEmpty gs else some g

/-- Spec wording of `parsePlayUrl`: groups on `$$$`, episodes on `#`,
first-`$` name/URL split; return the first group containing an `.m3u8`
URL, else the first containing an `.mp4` URL, else the first non-empty
group; an empty input yields an empty list. -/
def parsePlayUrlSpec (s : String) : List Episode :=
  if s = "" then []
  else
    let groups := (splitOnStr s "$$$").map specGroup
    match specSelectGroup (fun e => hasSubstr e.url ".m3u8") groups with
    | some g => g
    | none =>
      match specSelectGroup (fun e => hasSubstr e.url ".mp4") groups with
      | some g => g
      | none => (specFirstNonEmpty groups).getD []

theorem specEpisode_eq_filter (ep : String) :
    specEpisode ep = (parseEpisode ep).filter keepEpisode := by
  unfold specEpisode parseEpisode
  cases episodeNameUrl ep with
  | none => rfl
  | some nu =>
    obtain ⟨n, u⟩ := nu
    simp only [Option.filter]

theorem specGroup_eq_parseGroup (g : String) :
    specGroup g = parseGroup g := by
  unfold specGroup parseGroup
  rw [List.filter_filterMap]
  apply List.filterMap_congr
  intro x _
  rw [specEpisode_eq_filter]

theorem specSelectGroup_eq_find? (p : Episode → Bool) (gs : List (List Episode)) :
    specSelectGroup p gs = gs.find? (fun l => l.any p) := by
  induction gs with
  | nil => rfl
  | cons g gs ih =>
    simp only [specSelectGroup, List.find?]
    split <;> rename_i h
    · rw [h]
    · rw [Bool.not_eq_true] at h
      rw [h, ih]

theorem specFirstNonEmpty_eq_find? (gs : List (List Episode)) :
    specFirstNonEmpty gs = gs.find? (fun l => decide (0 < l.length)) := by
  induction gs with
  | nil => rfl
  | cons g gs ih =>
    simp only [specFirstNonEmpty, List.find?]
    cases g <;> simp_all [specFirstNonEmpty]

/-- C9: the play-link parser realizes the two-level `$$$`/`#`/first-`$`
delimiter grammar with the `.m3u8` → `.mp4` → first-non-empty priority
selection among quality groups, and an empty input yields an empty list:
`parsePlayUrl` coincides with the spec-worded `parsePlayUrlSpec`. -/
theorem parsePlayUrl_eq_spec (s : String) :
    parsePlayUrl s = parsePlayUrlSpec s := by
  unfold parsePlayUrl parsePlayUrlSpec
  by_cases hs : s = ""
  · simp [hs]
  · simp only [if_neg hs]
    have hg : (splitOnStr s "$$$").map specGroup = (splitOnStr s "$$$").map parseGroup :=
      List.map_congr_left fun g _ => specGroup_eq_parseGroup g
    rw [hg, specSelectGroup_eq_find?, specSelectGroup_eq_find?, specFirstNonEmpty_eq_find?]
    cases ((splitOnStr s "$$$").map parseGroup).find? (fun l => l.any fun e => hasSubstr e.url ".m3u8") with
    | some l => rfl
    | none =>
      cases ((splitOnStr s "$$$").map parseGroup).find? (fun l => l.any fun e => hasSubstr e.url ".mp4") with
      | some l => rfl
      | none =>
        cases ((splitOnStr s "$$$").map parseGroup).find? (fun l => decide (0 < l.length)) with
        | some l => rfl
        | none => rfl

/-- Every list `parsePlayUrl` can return is either empty or one of the
parsed quality groups. -/
theorem parsePlayUrl_result (s : String) :
    parsePlayUrl s = [] ∨ ∃ g ∈ splitOnStr s "$$$", parsePlayUrl s = parseGroup g := by
  unfold parsePlayUrl
  by_cases hs : s = ""
  · simp [hs]
  · simp only [if_neg hs]
    have hx : ∀ p (l : List Episode),
        ((splitOnStr s "$$$").map parseGroup).find? p = some l →
        ∃ g ∈ splitOnStr s "$$$", l = parseGroup g := by
      intro p l hf
      have hmem := List.mem_of_find?_eq_some hf
      rw [List.mem_map] at hmem
      obtain ⟨g, hg, hgl⟩ := hmem
      exact ⟨g, hg, hgl.symm⟩
    cases hf1 : ((splitOnStr s "$$$").map parseGroup).find? (fun l => l.any fun e => hasSubstr e.url ".m3u8") with
    | some l => exact Or.inr (hx _ l hf1)
    | none =>
      cases hf2 : ((splitOnStr s "$$$").map parseGroup).find? (fun l => l.any fun e => hasSubstr e.url ".mp4") with
      | some l => exact Or.inr (hx _ l hf2)
      | none =>
        cases hf3 : ((splitOnStr s "$$$").map parseGroup).find? (fun l => decide (0 < l.length)) with
        | some l => exact Or.inr (hx _ l hf3)
        | none => exact Or.inl rfl

/-- C10: every episode returned by the play-link parser has a non-empty URL
starting with `http` (episodes failing the filter are dropped), and a URL
beginning with `//` is upgraded to `https://` before that filter applies. -/
theorem parsePlayUrl_urls_http :
    (∀ s e, e ∈ parsePlayUrl s → e.url ≠ "" ∧ strStarts e.url "http") ∧
    (∀ raw n u, episodeNameUrl raw = some (n, u) → strStarts (trimStr u) "//" →
      parseEpisode raw = some ⟨trimStr n, "https:" ++ trimStr u⟩) := by
  constructor
  · intro s e he
    have hres := parsePlayUrl_result s
    rcases hres with h | ⟨g, _, h⟩
    · rw [h] at he
      exact absurd he (List.not_mem_nil e)
    · rw [h] at he
      unfold parseGroup at he
      have hk := List.of_mem_filter he
      unfold keepEpisode at hk
      rw [Bool.and_eq_true] at hk
      obtain ⟨hne, hpre⟩ := hk
      rw [Bool.or_eq_true] at hpre
      refine ⟨by simpa using hne, ?_⟩
      rcases hpre with h1 | h2
      · exact h1
      · exact strStarts_trans_of_prefix (by decide) h2
  · intro raw n u hnu hpre
    unfold parseEpisode
    rw [hnu]
    simp only [hpre, if_pos]

/-- Witness for C10 at a concrete play-link string. -/
theorem parsePlayUrl_urls_http_witness :
    ((⟨"EP2", "https://b/2.m3u8"⟩ : Episode).url ≠ "" ∧
      strStarts (⟨"EP2", "https://b/2.m3u8"⟩ : Episode).url "http") ∧
    parseEpisode " EP2$//b/2.m3u8 " = some ⟨"EP2", "https://b/2.m3u8"⟩ := by
  constructor
  · exact parsePlayUrl_urls_http.1 "EP1$http://a/1.m3u8#EP2$//b/2.m3u8"
      ⟨"EP2", "https://b/2.m3u8"⟩ (by decide)
  · have h := parsePlayUrl_urls_http.2 " EP2$//b/2.m3u8 " "EP2" "//b/2.m3u8"
      (by decide) (by decide)
    simpa using h

/-! ## Proxy-fallback fetch (`fetchViaProxy`, `src/utils/api.ts` lines 27–88)

Each proxy strategy's network outcome is supplied as an explicit
`AttemptResult` (the code's `fetch` call); the loop body, payload checks
and error bookkeeping are translated from the source. External
cancellation (`externalSignal`) is not exercised by the claim and is left
out of the model. -/

/-- The outcome of one strategy's `fetch` call: the per-attempt timeout
fired, the transport failed, or a response arrived. -/
inductive AttemptResult where
  | timeout
  | transportError (msg : String)
  | response (ok : Bool) (status : Nat) (body : String)
deriving Repr, DecidableEq

/-- The error recorded in `lastError` for a failed strategy. -/
inductive AttemptError where
  | timedOut
  | httpStatus (status : Nat)
  | htmlPayload
  | transport (msg : String)
deriving Repr, DecidableEq

/-- `text.trim().toLowerCase().startsWith('<!doctype html') || ...startsWith('<html')`. -/
def isHtmlBody (text : String) : Bool :=
  strStarts (lowerStr (trimStr text)) "<!doctype html" ||
  strStarts (lowerStr (trimStr text)) "<html"

/-- Targets allowed to return HTML:
`targetUrl.includes('ac=list') || ...('ac=detail') || ...('douban.com')`. -/
def isExemptTarget (targetUrl : String) : Bool :=
  hasSubstr targetUrl "ac=list" || hasSubstr targetUrl "ac=detail" ||
  hasSubstr targetUrl "douban.com"

/-- Evaluate one strategy attempt, mirroring the `try` body: an ok response
with a non-blank body is accepted unless it is an HTML document and the
target is not exempt; everything else produces the error stored in
`lastError`. (`text && text.trim().length > 0` is `trimStr body ≠ ""`.) -/
def evalAttempt (targetUrl : String) (a : AttemptResult) : Except AttemptError String :=
  match a with
  | .timeout => .error .timedOut
  | .transportError msg => .error (.transport msg)
  | .response ok status body =>
    if ok then
      if trimStr body ≠ "" then
        if isHtmlBody body && !(isExemptTarget targetUrl) then .error .htmlPayload
        else .ok body
      else .error (.httpStatus status)
    else .error (.httpStatus status)

/-- The strategy loop: try each attempt in order, remembering the last
error; exhausting all strategies throws `lastError`. -/
def fetchViaProxyGo (targetUrl : String) (lastError : Option AttemptError) :
    List AttemptResult → Except (Option AttemptError) String
  | [] => .error lastError
  | a :: rest =>
    match evalAttempt targetUrl a with
    | .ok body => .ok body
    | .error e => fetchViaProxyGo targetUrl (some e) rest

/-- `fetchViaProxy` from `src/utils/api.ts`: `lastError` starts as `null`. -/
def fetchViaProxy (targetUrl : String) (attempts : List AttemptResult) :
    Except (Option AttemptError) String :=
  fetchViaProxyGo targetUrl none attempts

theorem fetchViaProxyGo_ok_of_first
    (targetUrl body : String) (a : AttemptResult) :
    ∀ (pre post : List AttemptResult) (lastE : Option AttemptError),
      (∀ x ∈ pre, (evalAttempt targetUrl x).isOk = false) →
      evalAttempt targetUrl a = .ok body →
      fetchViaProxyGo targetUrl lastE (pre ++ a :: post) = .ok body := by
  intro pre
  induction pre with
  | nil =>
    intro post lastE _ ha
    simp [fetchViaProxyGo, ha]
  | cons x xs ih =>
    intro post lastE hpre ha
    have hx := hpre x (List.mem_cons_self x xs)
    simp only [List.cons_append, fetchViaProxyGo]
    cases hev : evalAttempt targetUrl x with
    | ok b => rw [hev] at hx; simp [Except.isOk, Except.toBool] at hx
    | error e =>
      exact ih post (some e) (fun y hy => hpre y (List.mem_cons_of_mem x hy)) ha

theorem fetchViaProxyGo_error_of_all
    (targetUrl : String) (aLast : AttemptResult) (e : AttemptError) :
    ∀ (atts : List AttemptResult) (lastE : Option AttemptError),
      (∀ x ∈ atts, (evalAttempt targetUrl x).isOk = false) →
      atts.getLast? = some aLast →
      evalAttempt targetUrl aLast = .error e →
      fetchViaProxyGo targetUrl lastE atts = .error (some e) := by
  intro atts
  induction atts with
  | nil => intro lastE _ hlast _; simp at hlast
  | cons x xs ih =>
    intro lastE hall hlast he
    have hx := hall x (List.mem_cons_self x xs)
    cases hev : evalAttempt targetUrl x with
    | ok b => rw [hev] at hx; simp [Except.isOk, Except.toBool] at hx
    | error ex =>
      simp only [fetchViaProxyGo, hev]
      cases xs with
      | nil =>
        have : x = aLast := by simpa using hlast
        subst this
        rw [hev] at he
        cases he
        simp [fetchViaProxyGo]
      | cons y ys =>
        have hlast' : (y :: ys).getLast? = some aLast := by
          rwa [List.getLast?_cons_cons] at hlast
        exact ih (some ex) (fun z hz => hall z (List.mem_cons_of_mem x hz)) hlast' he

/-- C5: strategies are attempted in order; an accepted response is an ok
response with a non-blank body that is not an HTML document (unless the
target is exempt from the HTML check); timeouts, transport failures, HTTP
errors and rejected HTML payloads advance to the next strategy; the first
accepted response's body is returned; and when every strategy fails, the
raised error is the failure of the last attempted strategy. -/
theorem fetchViaProxy_spec (targetUrl : String) :
    (∀ (pre post : List AttemptResult) (a : AttemptResult) (body : String),
      (∀ x ∈ pre, (evalAttempt targetUrl x).isOk = false) →
      evalAttempt targetUrl a = .ok body →
      fetchViaProxy targetUrl (pre ++ a :: post) = .ok body) ∧
    (∀ (atts : List AttemptResult) (aLast : AttemptResult) (e : AttemptError),
      (∀ x ∈ atts, (evalAttempt targetUrl x).isOk = false) →
      atts.getLast? = some aLast →
      evalAttempt targetUrl aLast = .error e →
      fetchViaProxy targetUrl atts = .error (some e)) ∧
    (∀ (status : Nat) (body : String),
      trimStr body ≠ "" → isHtmlBody body = true →
      (isExemptTarget targetUrl = false →
        evalAttempt targetUrl (.response true status body) = .error .htmlPayload) ∧
      (isExemptTarget targetUrl = true →
        evalAttempt targetUrl (.response true status body) = .ok body)) := by
  refine ⟨?_, ?_, ?_⟩
  · intro pre post a body hpre ha
    exact fetchViaProxyGo_ok_of_first targetUrl body a pre post none hpre ha
  · intro atts aLast e hall hlast he
    exact fetchViaProxyGo_error_of_all targetUrl aLast e atts none hall hlast he
  · intro status body hblank hhtml
    constructor
    · intro hex
      simp [evalAttempt, hblank, hhtml, hex]
    · intro hex
      simp [evalAttempt, hblank, hhtml, hex]

/-- Witness for C5: with S1 a timeout, S2 an HTML error page and S3 a
success, the body of S3 is returned; when S3 also fails, the raised error
wraps S3's transport failure; and the HTML check is skipped for an
`ac=list` target. -/
theorem fetchViaProxy_spec_witness :
    fetchViaProxy "https://img.example.com/data.json"
      [.timeout, .response true 200 "<html><body>oops</body></html>",
       .response true 200 "ok-data"] = .ok "ok-data" ∧
    fetchViaProxy "https://img.example.com/data.json"
      [.timeout, .response true 200 "<html><body>oops</body></html>",
       .transportError "refused"] = .error (some (.transport "refused")) ∧
    evalAttempt "https://h.example.com/api.php?ac=list"
      (.response true 200 "<html>maccms</html>") = .ok "<html>maccms</html>" := by
  refine ⟨?_, ?_, ?_⟩
  · exact (fetchViaProxy_spec "https://img.example.com/data.json").1
      [.timeout, .response true 200 "<html><body>oops</body></html>"] []
      (.response true 200 "ok-data") "ok-data" (by decide) (by rfl)
  · exact (fetchViaProxy_spec "https://img.example.com/data.json").2.1
      [.timeout, .response true 200 "<html><body>oops</body></html>",
       .transportError "refused"]
      (.transportError "refused") (.transport "refused") (by decide) (by decide) (by rfl)
  · exact ((fetchViaProxy_spec "https://h.example.com/api.php?ac=list").2.2 200
      "<html>maccms</html>" (by decide) (by decide)).2 (by decide)

/-! ## HLS playlist sanitizer (`fetchAndCleanM3u8`)

The function exists twice in the repository: in the player of
`src/unnamed/part_001` (V1) and in the player of `src/unnamed/part_002`
(V2). Both are embedded. The network (`fetch`) is an oracle
`fetchFn : String → Option String` mapping a URL to the response text;
`toAbs p b` stands for `new URL(p, b).href` (returning `p` when parsing
throws); `fpOf absUrl` stands for parsing `absUrl` with `new URL` and
producing the fingerprint `hostname + '|' + directory-path`, `none` when
parsing throws. -/

/-- The result record `{content, removedCount, log}`. -/
structure CleanResult where
  content : String
  removedCount : Nat
  log : String
deriving Repr, DecidableEq

/-- `originalContent.includes('#EXT-X-STREAM-INF')`. -/
def containsStreamInf (s : String) : Bool := hasSubstr s "#EXT-X-STREAM-INF"

/-- Maximal run of leading decimal digits. -/
def leadingDigits (cs : List Char) : List Char := cs.takeWhile Char.isDigit

/-- Numeric value of a digit run (JS `parseInt`). -/
def natOfDigits (cs : List Char) : Nat := cs.foldl (fun n c => 10 * n + (c.toNat - 48)) 0

/-- First match of the regex `BANDWIDTH=(\d+)`: scan for `BANDWIDTH=`
immediately followed by at least one digit, capture the digit run. -/
def findBandwidth : List Char → Option Nat
  | [] => none
  | c :: cs =>
    if "BANDWIDTH=".toList.isPrefixOf (c :: cs) then
      let ds := leadingDigits ((c :: cs).drop 10)
      if ds ≠ [] then some (natOfDigits ds) else findBandwidth cs
    else findBandwidth cs

/-- The declared bandwidth of a stream-variant line:
`bwMatch ? parseInt(bwMatch[1]) : 0`, as an `Int` so it compares against
the `-1` the selection loop starts from. -/
def bandwidthOf (l : String) : Int := ((findBandwidth l.toList).getD 0 : Nat)

/-- The inner scan of the variant-selection loop: the first following line
that is non-empty and does not start with `#` after trimming. -/
def firstUriLine : List String → Option String
  | [] => none
  | l :: ls =>
    let t := trimStr l
    if t ≠ "" && !(strStarts t "#") then some t else firstUriLine ls

/-- The variant-selection loop over the playlist lines, carrying
`(bestUrl, maxBandwidth)` exactly as the source does. -/
def selectVariantGo : List String → (Option String × Int) → (Option String × Int)
  | [], acc => acc
  | l :: rest, acc =>
    if containsStreamInf l then
      match firstUriLine rest with
      | some uri =>
        if bandwidthOf l > acc.2 then selectVariantGo rest (some uri, bandwidthOf l)
        else if acc.1 = none then selectVariantGo rest (some uri, acc.2)
        else selectVariantGo rest acc
      | none => selectVariantGo rest acc
    else selectVariantGo rest acc

/-- The `bestUrl` selected from a master playlist (`maxBandwidth` starts at `-1`). -/
def selectBestUrl (lines : List String) : Option String :=
  (selectVariantGo lines (none, -1)).1

/-- The `(bandwidth, uri)` pairs the selection loop iterates over, in order:
one entry per stream-variant line that has a following URI line. -/
def variantsOf : List String → List (Int × String)
  | [] => []
  | l :: rest =>
    if containsStreamInf l then
      match firstUriLine rest with
      | some uri => (bandwidthOf l, uri) :: variantsOf rest
      | none => variantsOf rest
    else variantsOf rest

/-- The segment scan of the media-playlist branch: every non-empty
non-comment line at its index, paired with its fingerprint (lines whose
URL fails to parse are skipped). -/
def mediaSegments (toAbs : String → String → String) (fpOf : String → Option String)
    (url : String) : List String → Nat → List (Nat × String)
  | [], _ => []
  | l :: ls, i =>
    let t := trimStr l
    if t = "" || strStarts t "#" then mediaSegments toAbs fpOf url ls (i + 1)
    else
      match fpOf (toAbs t url) with
      | some f => (i, f) :: mediaSegments toAbs fpOf url ls (i + 1)
      | none => mediaSegments toAbs fpOf url ls (i + 1)

/-- Keys of `fingerprintCounts` in insertion order (`Object.entries`
enumerates string keys in insertion order, i.e. first occurrence). -/
def dedupFirst (l : List String) : List String :=
  l.foldl (fun acc x => if x ∈ acc then acc else acc ++ [x]) []

/-- `fingerprintCounts[fp]`: occurrences of a fingerprint among the segments. -/
def countFp (segs : List (Nat × String)) (f : String) : Nat :=
  (segs.filter (fun s => s.2 = f)).length

/-- The `for (const [fp, c] of Object.entries(...))` loop computing
`(dominantFp, maxC)`: the first-encountered fingerprint of strictly
maximal count, starting from `('', 0)`. -/
def dominantPair (segs : List (Nat × String)) : String × Nat :=
  (dedupFirst (segs.map (·.2))).foldl
    (fun acc f => if countFp segs f > acc.2 then (f, countFp segs f) else acc) ("", 0)

/-- The metadata directives absorbed by the backward walk. -/
def isMetaDirective (l : String) : Bool :=
  strStarts l "#EXTINF" || strStarts l "#EXT-X-BYTERANGE" ||
  strStarts l "#EXT-X-KEY" || strStarts l "#EXT-X-DISCONTINUITY"

/-- The backward walk from `seg.idx - 1`: absorb metadata directives into
the removal set, step over other comments and blank lines, stop at
anything else. -/
def traceBack (lines : List String) : Nat → List Nat
  | 0 =>
    let l := trimStr (lines.getD 0 "")
    if isMetaDirective l then [0] else []
  | j + 1 =>
    let l := trimStr (lines.getD (j + 1) "")
    if isMetaDirective l then (j + 1) :: traceBack lines j
    else if !(strStarts l "#EXT") && strStarts l "#" then traceBack lines j
    else if l = "" then traceBack lines j
    else []

/-- The removal set `linesToRemove` (as a list whose membership matters):
every minority segment index together with its backward walk. -/
def linesToRemoveList (lines : List String) (dominantFp : String) :
    List (Nat × String) → List Nat
  | [] => []
  | (idx, f) :: rest =>
    if f ≠ dominantFp then
      (idx :: (match idx with | 0 => [] | i + 1 => traceBack lines i))
        ++ linesToRemoveList lines dominantFp rest
    else linesToRemoveList lines dominantFp rest

/-- First match of `URI="([^"]+)"` with the captured group rewritten by `f`;
`none` when the regex does not match. -/
def uriAttrScan (f : String → String) : List Char → Option (List Char)
  | [] => none
  | c :: cs =>
    if "URI=\"".toList.isPrefixOf (c :: cs) then
      let after := (c :: cs).drop 5
      let captured := after.takeWhile (· ≠ '"')
      let rest := after.dropWhile (· ≠ '"')
      if captured ≠ [] && rest ≠ [] then
        some ("URI=\"".toList ++ (f (String.mk captured)).toList ++ rest)
      else (uriAttrScan f cs).map (c :: ·)
    else (uriAttrScan f cs).map (c :: ·)

/-- `content.replace(/URI="([^"]+)"/, (m, p1) => 'URI="' + toAbsolute(p1, url) + '"')`. -/
def rewriteKeyUri (toAbs : String → String → String) (url s : String) : String :=
  match uriAttrScan (fun u => toAbs u url) s.toList with
  | some cs => String.mk cs
  | none => s

/-- The reconstruction loop: drop removed and blank lines, rewrite the
URI attribute of `#EXT-X-KEY` directives, keep other comments, and
absolutize surviving segment URIs. -/
def rebuildLines (toAbs : String → String → String) (url : String) (rm : List Nat) :
    List String → Nat → List String
  | [], _ => []
  | l :: ls, i =>
    if i ∈ rm then rebuildLines toAbs url rm ls (i + 1)
    else
      let c := trimStr l
      if c = "" then rebuildLines toAbs url rm ls (i + 1)
      else if strStarts c "#" then
        (if strStarts c "#EXT-X-KEY" && hasSubstr c "URI=\"" then rewriteKeyUri toAbs url c
         else c) :: rebuildLines toAbs url rm ls (i + 1)
      else toAbs c url :: rebuildLines toAbs url rm ls (i + 1)

/-- `newLines.join('\n')`. -/
def joinLines : List String → String
  | [] => ""
  | [x] => x
  | x :: y :: xs => x ++ "\n" ++ joinLines (y :: xs)

/-- `fetchAndCleanM3u8` of `src/unnamed/part_001` (the V1 player):
guard the recursion depth, fetch, recurse into the best variant of a
master playlist, otherwise fingerprint the segments, keep the playlist
unchanged when homogeneity is below `0.4` (the exact rational comparison
`maxC / total < 0.4` is `5 * maxC < 2 * total`), else strip the minority
clusters; the removed count is incremented by one when the result came
through master-playlist recursion (`depth > 0`). -/
def fetchAndCleanM3u8V1 (fetchFn : String → Option String)
    (toAbs : String → String → String) (fpOf : String → Option String)
    (url : String) (depth : Nat) : Except String CleanResult :=
  if h : depth > 3 then .error "Redirect loop detected in M3U8 playlist"
  else
    match fetchFn url with
    | none => .error "HTTP error"
    | some originalContent =>
      let lines := splitLines originalContent
      match (if containsStreamInf originalContent then selectBestUrl lines else none) with
      | some bestUrl => fetchAndCleanM3u8V1 fetchFn toAbs fpOf (toAbs bestUrl url) (depth + 1)
      | none =>
        let segs := mediaSegments toAbs fpOf url lines 0
        let dp := dominantPair segs
        if segs.length = 0 || 5 * dp.2 < 2 * segs.length then
          .ok ⟨originalContent, 0, "未清洗 (特征不明显)"⟩
        else
          let rm := linesToRemoveList lines dp.1 segs
          let newLines := rebuildLines toAbs url rm lines 0
          let removed := segs.length - dp.2
          .ok ⟨joinLines newLines, if depth > 0 then removed + 1 else removed,
               s!"已移除 {removed} 个广告分片"⟩
termination_by 4 - depth
decreasing_by omega

/-- `fetchAndCleanM3u8` of `src/unnamed/part_002` (the V2 player):
identical to V1 except for the log strings and the removed count, which
is `segments.length - maxC` with no depth adjustment. -/
def fetchAndCleanM3u8V2 (fetchFn : String → Option String)
    (toAbs : String → String → String) (fpOf : String → Option String)
    (url : String) (depth : Nat) : Except String CleanResult :=
  if h : depth > 3 then .error "Redirect loop detected"
  else
    match fetchFn url with
    | none => .error "HTTP error"
    | some originalContent =>
      let lines := splitLines originalContent
      match (if containsStreamInf originalContent then selectBestUrl lines else none) with
      | some bestUrl => fetchAndCleanM3u8V2 fetchFn toAbs fpOf (toAbs bestUrl url) (depth + 1)
      | none =>
        let segs := mediaSegments toAbs fpOf url lines 0
        let dp := dominantPair segs
        if segs.length = 0 || 5 * dp.2 < 2 * segs.length then
          .ok ⟨originalContent, 0, "未清洗"⟩
        else
          let rm := linesToRemoveList lines dp.1 segs
          let newLines := rebuildLines toAbs url rm lines 0
          .ok ⟨joinLines newLines, segs.length - dp.2,
               s!"已移除 {segs.length - dp.2} 分片"⟩
termination_by 4 - depth
decreasing_by omega

section CleanUnfold

variable (fetchFn : String → Option String) (toAbs : String → String → String)
variable (fpOf : String → Option String)

theorem fetchAndCleanM3u8V1_master_step (url depth content bestUrl)
    (hd : depth ≤ 3) (hf : fetchFn url = some content)
    (hm : containsStreamInf content = true)
    (hb : selectBestUrl (splitLines content) = some bestUrl) :
    fetchAndCleanM3u8V1 fetchFn toAbs fpOf url depth
      = fetchAndCleanM3u8V1 fetchFn toAbs fpOf (toAbs bestUrl url) (depth + 1) := by
  rw [fetchAndCleanM3u8V1.eq_def]
  rw [dif_neg (by omega : ¬ depth > 3), hf]
  simp only [hm, if_true, hb]

theorem fetchAndCleanM3u8V2_master_step (url depth content bestUrl)
    (hd : depth ≤ 3) (hf : fetchFn url = some content)
    (hm : containsStreamInf content = true)
    (hb : selectBestUrl (splitLines content) = some bestUrl) :
    fetchAndCleanM3u8V2 fetchFn toAbs fpOf url depth
      = fetchAndCleanM3u8V2 fetchFn toAbs fpOf (toAbs bestUrl url) (depth + 1) := by
  rw [fetchAndCleanM3u8V2.eq_def]
  rw [dif_neg (by omega : ¬ depth > 3), hf]
  simp only [hm, if_true, hb]

theorem fetchAndCleanM3u8V1_unchanged (url depth content)
    (hd : depth ≤ 3) (hf : fetchFn url = some content)
    (hm : containsStreamInf content = false)
    (hcond : (mediaSegments toAbs fpOf url (splitLines content) 0).length = 0 ∨
      5 * (dominantPair (mediaSegments toAbs fpOf url (splitLines content) 0)).2 <
        2 * (mediaSegments toAbs fpOf url (splitLines content) 0).length) :
    fetchAndCleanM3u8V1 fetchFn toAbs fpOf url depth
      = .ok ⟨content, 0, "未清洗 (特征不明显)"⟩ := by
  rw [fetchAndCleanM3u8V1.eq_def]
  rw [dif_neg (by omega : ¬ depth > 3), hf]
  simp only [hm, Bool.false_eq_true, if_false]
  rw [if_pos]
  simpa [decide_eq_true_eq] using hcond

theorem fetchAndCleanM3u8V2_unchanged (url depth content)
    (hd : depth ≤ 3) (hf : fetchFn url = some content)
    (hm : containsStreamInf content = false)
    (hcond : (mediaSegments toAbs fpOf url (splitLines content) 0).length = 0 ∨
      5 * (dominantPair (mediaSegments toAbs fpOf url (splitLines content) 0)).2 <
        2 * (mediaSegments toAbs fpOf url (splitLines content) 0).length) :
    fetchAndCleanM3u8V2 fetchFn toAbs fpOf url depth
      = .ok ⟨content, 0, "未清洗"⟩ := by
  rw [fetchAndCleanM3u8V2.eq_def]
  rw [dif_neg (by omega : ¬ depth > 3), hf]
  simp only [hm, Bool.false_eq_true, if_false]
  rw [if_pos]
  simpa [decide_eq_true_eq] using hcond

theorem fetchAndCleanM3u8V1_strip (url depth content)
    (hd : depth ≤ 3) (hf : fetchFn url = some content)
    (hm : containsStreamInf content = false)
    (hcond : ¬ ((mediaSegments toAbs fpOf url (splitLines content) 0).length = 0 ∨
      5 * (dominantPair (mediaSegments toAbs fpOf url (splitLines content) 0)).2 <
        2 * (mediaSegments toAbs fpOf url (splitLines content) 0).length)) :
    fetchAndCleanM3u8V1 fetchFn toAbs fpOf url depth
      = .ok ⟨joinLines (rebuildLines toAbs url
            (linesToRemoveList (splitLines content)
              (dominantPair (mediaSegments toAbs fpOf url (splitLines content) 0)).1
              (mediaSegments toAbs fpOf url (splitLines content) 0))
            (splitLines content) 0),
          (if depth > 0 then
            (mediaSegments toAbs fpOf url (splitLines content) 0).length -
              (dominantPair (mediaSegments toAbs fpOf url (splitLines content) 0)).2 + 1
           else
            (mediaSegments toAbs fpOf url (splitLines content) 0).length -
              (dominantPair (mediaSegments toAbs fpOf url (splitLines content) 0)).2),
          s!"已移除 {(mediaSegments toAbs fpOf url (splitLines content) 0).length -
              (dominantPair (mediaSegments toAbs fpOf url (splitLines content) 0)).2} 个广告分片"⟩ := by
  rw [fetchAndCleanM3u8V1.eq_def]
  rw [dif_neg (by omega : ¬ depth > 3), hf]
  simp only [hm, Bool.false_eq_true, if_false]
  rw [if_neg]
  simpa [decide_eq_true_eq] using hcond

theorem fetchAndCleanM3u8V2_strip (url depth content)
    (hd : depth ≤ 3) (hf : fetchFn url = some content)
    (hm : containsStreamInf content = false)
    (hcond : ¬ ((mediaSegments toAbs fpOf url (splitLines content) 0).length = 0 ∨
      5 * (dominantPair (mediaSegments toAbs fpOf url (splitLines content) 0)).2 <
        2 * (mediaSegments toAbs fpOf url (splitLines content) 0).length)) :
    fetchAndCleanM3u8V2 fetchFn toAbs fpOf url depth
      = .ok ⟨joinLines (rebuildLines toAbs url
            (linesToRemoveList (splitLines content)
              (dominantPair (mediaSegments toAbs fpOf url (splitLines content) 0)).1
              (mediaSegments toAbs fpOf url (splitLines content) 0))
            (splitLines content) 0),
          (mediaSegments toAbs fpOf url (splitLines content) 0).length -
            (dominantPair (mediaSegments toAbs fpOf url (splitLines content) 0)).2,
          s!"已移除 {(mediaSegments toAbs fpOf url (splitLines content) 0).length -
              (dominantPair (mediaSegments toAbs fpOf url (splitLines content) 0)).2} 分片"⟩ := by
  rw [fetchAndCleanM3u8V2.eq_def]
  rw [dif_neg (by omega : ¬ depth > 3), hf]
  simp only [hm, Bool.false_eq_true, if_false]
  rw [if_neg]
  simpa [decide_eq_true_eq] using hcond

end CleanUnfold

theorem mem_foldl_dedup (l : List String) :
    ∀ (acc : List String) (y : String),
      y ∈ l.foldl (fun acc x => if x ∈ acc then acc else acc ++ [x]) acc ↔
        y ∈ acc ∨ y ∈ l := by
  induction l with
  | nil => intro acc y; simp
  | cons x xs ih =>
    intro acc y
    rw [List.foldl_cons, ih]
    by_cases hx : x ∈ acc
    · simp only [if_pos hx, List.mem_cons]
      constructor
      · rintro (h | h)
        · exact Or.inl h
        · exact Or.inr (Or.inr h)
      · rintro (h | h | h)
        · exact Or.inl h
        · exact Or.inl (h ▸ hx)
        · exact Or.inr h
    · simp only [if_neg hx, List.mem_append, List.mem_singleton, List.mem_cons]
      tauto

theorem mem_dedupFirst (l : List String) (y : String) : y ∈ dedupFirst l ↔ y ∈ l := by
  unfold dedupFirst
  rw [mem_foldl_dedup]
  simp

theorem domFold_acc_le (segs : List (Nat × String)) :
    ∀ (fps : List String) (acc : String × Nat),
      acc.2 ≤ (fps.foldl
        (fun acc f => if countFp segs f > acc.2 then (f, countFp segs f) else acc) acc).2 := by
  intro fps
  induction fps with
  | nil => intro acc; simp
  | cons f fs ih =>
    intro acc
    rw [List.foldl_cons]
    refine le_trans ?_ (ih _)
    split <;> simp_all <;> omega

theorem domFold_mem_le (segs : List (Nat × String)) :
    ∀ (fps : List String) (acc : String × Nat) (f : String), f ∈ fps →
      countFp segs f ≤ (fps.foldl
        (fun acc f => if countFp segs f > acc.2 then (f, countFp segs f) else acc) acc).2 := by
  intro fps
  induction fps with
  | nil => intro acc f h; simp at h
  | cons g gs ih =>
    intro acc f hf
    rw [List.foldl_cons]
    rcases List.mem_cons.mp hf with h | h
    · subst h
      refine le_trans ?_ (domFold_acc_le segs gs _)
      split <;> omega
    · exact ih _ f h

/-- `maxC` dominates every fingerprint's count. -/
theorem dominantPair_count_le (segs : List (Nat × String)) (f : String) :
    countFp segs f ≤ (dominantPair segs).2 := by
  by_cases hz : countFp segs f = 0
  · rw [hz]; exact Nat.zero_le _
  · have hmem : f ∈ segs.map (·.2) := by
      unfold countFp at hz
      obtain ⟨s, hs⟩ := List.exists_mem_of_length_pos (Nat.pos_of_ne_zero hz)
      obtain ⟨hsegs, hsf⟩ := List.mem_filter.mp hs
      rw [List.mem_map]
      exact ⟨s, hsegs, by simpa using hsf⟩
    unfold dominantPair
    exact domFold_mem_le segs _ _ f ((mem_dedupFirst _ f).mpr hmem)

/-! ### Concrete oracles used by witnesses and counterexamples

Simple, hand-checkable instances of the `new URL` primitives: absolute
http(s) URLs pass through `demoToAbs` unchanged, relative paths are
resolved against the base's directory; `demoFp` fingerprints an http(s)
URL by everything up to and including its last `/` (host plus directory,
filename stripped). -/

def demoToAbs (p b : String) : String :=
  if strStarts p "http" then p
  else String.mk ((b.toList.reverse.dropWhile (· ≠ '/')).reverse) ++ p

def demoFp (absUrl : String) : Option String :=
  if strStarts absUrl "http" then
    some (String.mk ((absUrl.toList.reverse.dropWhile (· ≠ '/')).reverse))
  else none

/-- A media playlist whose three segments live in three different
directories: the largest cluster holds 1 of 3 segments (ratio 1/3 < 0.4). -/
def demoLowRatio : String :=
  "#EXTM3U\n#EXTINF:4,\nhttp://a.com/x/1.ts\n#EXTINF:4,\nhttp://b.com/y/2.ts\n#EXTINF:4,\nhttp://c.com/z/3.ts"

def demoFetchLow (u : String) : Option String :=
  if u = "http://h/low.m3u8" then some demoLowRatio else none

/-- C1: for a fetched media playlist with no segment lines, or whose
dominant fingerprint cluster covers strictly less than 0.4 of the segment
lines (`5 * maxC < 2 * total` is exactly `maxC / total < 0.4`), both
sanitizer copies return the fetched content byte-identical with
`removedCount = 0`; `(dominantPair segs).2` really is the dominant
cluster's count, i.e. it bounds every fingerprint's count. -/
theorem sanitize_low_ratio_unchanged
    (fetchFn : String → Option String) (toAbs : String → String → String)
    (fpOf : String → Option String) (url : String) (depth : Nat) (content : String)
    (hd : depth ≤ 3) (hf : fetchFn url = some content)
    (hm : containsStreamInf content = false)
    (hcond : (mediaSegments toAbs fpOf url (splitLines content) 0).length = 0 ∨
      5 * (dominantPair (mediaSegments toAbs fpOf url (splitLines content) 0)).2 <
        2 * (mediaSegments toAbs fpOf url (splitLines content) 0).length) :
    fetchAndCleanM3u8V1 fetchFn toAbs fpOf url depth
      = .ok ⟨content, 0, "未清洗 (特征不明显)"⟩ ∧
    fetchAndCleanM3u8V2 fetchFn toAbs fpOf url depth
      = .ok ⟨content, 0, "未清洗"⟩ ∧
    ∀ f, countFp (mediaSegments toAbs fpOf url (splitLines content) 0) f ≤
      (dominantPair (mediaSegments toAbs fpOf url (splitLines content) 0)).2 :=
  ⟨fetchAndCleanM3u8V1_unchanged fetchFn toAbs fpOf url depth content hd hf hm hcond,
   fetchAndCleanM3u8V2_unchanged fetchFn toAbs fpOf url depth content hd hf hm hcond,
   fun f => dominantPair_count_le _ f⟩

/-- Witness for C1: on the 1/1/1-cluster playlist both sanitizers return
the content unchanged with `removedCount = 0`. -/
theorem sanitize_low_ratio_unchanged_witness :
    fetchAndCleanM3u8V1 demoFetchLow demoToAbs demoFp "http://h/low.m3u8" 0
      = .ok ⟨demoLowRatio, 0, "未清洗 (特征不明显)"⟩ ∧
    fetchAndCleanM3u8V2 demoFetchLow demoToAbs demoFp "http://h/low.m3u8" 0
      = .ok ⟨demoLowRatio, 0, "未清洗"⟩ ∧
    countFp (mediaSegments demoToAbs demoFp "http://h/low.m3u8"
        (splitLines demoLowRatio) 0) "http://a.com/x/"
      ≤ (dominantPair (mediaSegments demoToAbs demoFp "http://h/low.m3u8"
        (splitLines demoLowRatio) 0)).2 := by
  have h := sanitize_low_ratio_unchanged demoFetchLow demoToAbs demoFp
    "http://h/low.m3u8" 0 demoLowRatio (by decide) (by rfl) (by decide) (by decide)
  exact ⟨h.1, h.2.1, h.2.2 "http://a.com/x/"⟩

/-! ### Master-playlist variant selection (claim C7) -/

/-- The selection loop's step, phrased on one `(bandwidth, uri)` pair. -/
def variantStep (acc : Option String × Int) (v : Int × String) : Option String × Int :=
  if v.1 > acc.2 then (some v.2, v.1)
  else if acc.1 = none then (some v.2, acc.2)
  else acc

/-- The first pair of strictly maximal bandwidth, scanning left to right. -/
def firstMaxFrom : (Int × String) → List (Int × String) → (Int × String)
  | w, [] => w
  | w, v :: vs => if v.1 > w.1 then firstMaxFrom v vs else firstMaxFrom w vs

theorem selectVariantGo_eq_fold (lines : List String) :
    ∀ acc, selectVariantGo lines acc = (variantsOf lines).foldl variantStep acc := by
  induction lines with
  | nil => intro acc; rfl
  | cons l rest ih =>
    intro acc
    simp only [selectVariantGo, variantsOf]
    by_cases hs : containsStreamInf l
    · simp only [hs, if_true]
      cases firstUriLine rest with
      | none => exact ih acc
      | some uri =>
        simp only [List.foldl_cons, variantStep]
        by_cases hbw : bandwidthOf l > acc.2
        · simp only [if_pos hbw]; exact ih _
        · simp only [if_neg hbw]
          by_cases hnone : acc.1 = none
          · simp only [if_pos hnone]; exact ih _
          · simp only [if_neg hnone]; exact ih _
    · simp only [hs, if_false]
      exact ih acc

theorem foldl_variantStep_some (vs : List (Int × String)) :
    ∀ (u : String) (b : Int),
      vs.foldl variantStep (some u, b) =
        (some (firstMaxFrom (b, u) vs).2, (firstMaxFrom (b, u) vs).1) := by
  induction vs with
  | nil => intro u b; rfl
  | cons v vs ih =>
    intro u b
    rw [List.foldl_cons]
    unfold firstMaxFrom
    by_cases hv : v.1 > b
    · simp only [variantStep, if_pos hv]
      exact ih v.2 v.1
    · have : variantStep (some u, b) v = (some u, b) := by
        simp [variantStep, if_neg hv]
      rw [this, if_neg hv]
      exact ih u b

theorem firstMaxFrom_spec (vs : List (Int × String)) :
    ∀ (w : Int × String),
      (∃ l1 l2, w :: vs = l1 ++ firstMaxFrom w vs :: l2 ∧
        (∀ u ∈ l1, u.1 < (firstMaxFrom w vs).1)) ∧
      (∀ u ∈ w :: vs, u.1 ≤ (firstMaxFrom w vs).1) := by
  induction vs with
  | nil =>
    intro w
    exact ⟨⟨[], [], rfl, by simp⟩, by simp [firstMaxFrom]⟩
  | cons v vs ih =>
    intro w
    unfold firstMaxFrom
    by_cases hv : v.1 > w.1
    · simp only [if_pos hv]
      obtain ⟨⟨l1, l2, hdec, hlt⟩, hle⟩ := ih v
      have hvle : v.1 ≤ (firstMaxFrom v vs).1 := hle v (List.mem_cons_self v vs)
      refine ⟨⟨w :: l1, l2, by rw [List.cons_append, hdec], ?_⟩, ?_⟩
      · intro u hu
        rcases List.mem_cons.mp hu with h | h
        · subst h; omega
        · exact hlt u h
      · intro u hu
        rcases List.mem_cons.mp hu with h | h
        · subst h; omega
        · exact hle u h
    · simp only [if_neg hv]
      obtain ⟨⟨l1, l2, hdec, hlt⟩, hle⟩ := ih w
      have hwle : w.1 ≤ (firstMaxFrom w vs).1 := hle w (List.mem_cons_self w vs)
      refine ⟨?_, ?_⟩
      · cases l1 with
        | nil =>
          simp only [List.nil_append, List.cons.injEq] at hdec
          refine ⟨[], v :: vs, ?_, by simp⟩
          rw [List.nil_append]
          exact congrArg (fun x => x :: v :: vs) hdec.1
        | cons a t =>
          rw [List.cons_append, List.cons.injEq] at hdec
          obtain ⟨ha, hvs⟩ := hdec
          subst ha
          refine ⟨w :: v :: t, l2, ?_, ?_⟩
          · have h1 : w :: v :: vs = w :: v :: (t ++ firstMaxFrom w vs :: l2) :=
              congrArg (fun l => w :: v :: l) hvs
            rw [h1]
            rfl
          · intro u hu
            have hwlt : w.1 < (firstMaxFrom w vs).1 := hlt w (List.mem_cons_self w t)
            rcases List.mem_cons.mp hu with h | h
            · subst h; exact hwlt
            · rcases List.mem_cons.mp h with h' | h'
              · subst h'; omega
              · exact hlt u (List.mem_cons_of_mem w h')
      · intro u hu
        rcases List.mem_cons.mp hu with h | h
        · subst h; exact hwle
        · rcases List.mem_cons.mp h with h' | h'
          · subst h'; omega
          · exact hle u (List.mem_cons_of_mem w h')

theorem variantsOf_nonneg (lines : List String) :
    ∀ v ∈ variantsOf lines, 0 ≤ v.1 := by
  induction lines with
  | nil => intro v hv; simp [variantsOf] at hv
  | cons l rest ih =>
    intro v hv
    unfold variantsOf at hv
    by_cases hs : containsStreamInf l
    · simp only [hs, if_true] at hv
      cases hu : firstUriLine rest with
      | none => rw [hu] at hv; exact ih v hv
      | some uri =>
        rw [hu] at hv
        rcases List.mem_cons.mp hv with h | h
        · subst h; simp [bandwidthOf]
        · exact ih v h
    · simp only [hs, if_false] at hv
      exact ih v hv

/-- The master playlist of the spec's example, bandwidths 500000 / 1200000
/ 900000. -/
def demoVariantLines : List String :=
  ["#EXTM3U",
   "#EXT-X-STREAM-INF:BANDWIDTH=500000,RESOLUTION=640x360",
   "low/index.m3u8",
   "#EXT-X-STREAM-INF:BANDWIDTH=1200000,RESOLUTION=1920x1080",
   "mid/index.m3u8",
   "#EXT-X-STREAM-INF:BANDWIDTH=900000,RESOLUTION=1280x720",
   "hi/index.m3u8"]

/-- C7: on a master playlist both sanitizer copies recurse into the
selected variant URI resolved against the current URL; the selected
variant is the first one of strictly maximal declared bandwidth (every
variant before it has strictly smaller bandwidth, and none exceeds it);
and on bandwidths {500000, 1200000, 900000} the 1200000 variant is
selected. -/
theorem master_variant_selection :
    (∀ (fetchFn : String → Option String) (toAbs : String → String → String)
       (fpOf : String → Option String) (url : String) (depth : Nat)
       (content bestUrl : String),
      depth ≤ 3 → fetchFn url = some content →
      containsStreamInf content = true →
      selectBestUrl (splitLines content) = some bestUrl →
      fetchAndCleanM3u8V1 fetchFn toAbs fpOf url depth
        = fetchAndCleanM3u8V1 fetchFn toAbs fpOf (toAbs bestUrl url) (depth + 1) ∧
      fetchAndCleanM3u8V2 fetchFn toAbs fpOf url depth
        = fetchAndCleanM3u8V2 fetchFn toAbs fpOf (toAbs bestUrl url) (depth + 1)) ∧
    (∀ (lines : List String) (v : Int × String) (vs : List (Int × String)),
      variantsOf lines = v :: vs →
      ∃ l1 w l2, v :: vs = l1 ++ w :: l2 ∧
        selectBestUrl lines = some w.2 ∧
        (∀ u ∈ l1, u.1 < w.1) ∧ (∀ u ∈ v :: vs, u.1 ≤ w.1)) ∧
    selectBestUrl demoVariantLines = some "mid/index.m3u8" := by
  refine ⟨?_, ?_, by decide⟩
  · intro fetchFn toAbs fpOf url depth content bestUrl hd hf hm hb
    exact ⟨fetchAndCleanM3u8V1_master_step fetchFn toAbs fpOf url depth content bestUrl hd hf hm hb,
           fetchAndCleanM3u8V2_master_step fetchFn toAbs fpOf url depth content bestUrl hd hf hm hb⟩
  · intro lines v vs hvar
    have hv0 : (0 : Int) ≤ v.1 :=
      variantsOf_nonneg lines v (hvar ▸ List.mem_cons_self v vs)
    have hsel : selectBestUrl lines =
        (some (firstMaxFrom v vs).2, (firstMaxFrom v vs).1).1 := by
      unfold selectBestUrl
      rw [selectVariantGo_eq_fold, hvar, List.foldl_cons]
      have hstep : variantStep (none, -1) v = (some v.2, v.1) := by
        simp only [variantStep]
        rw [if_pos (by omega)]
      rw [hstep, foldl_variantStep_some]
    obtain ⟨⟨l1, l2, hdec, hlt⟩, hle⟩ := firstMaxFrom_spec vs v
    exact ⟨l1, firstMaxFrom v vs, l2, hdec, hsel, hlt, hle⟩

/-- The same master playlist as one text document, plus the media playlist
its best variant resolves to: four segments in `http://cdn.com/v/` and one
injected ad segment in `http://ads.com/x/`. -/
def demoMasterContent : String :=
  "#EXTM3U\n#EXT-X-STREAM-INF:BANDWIDTH=500000,RESOLUTION=640x360\nlow/index.m3u8\n#EXT-X-STREAM-INF:BANDWIDTH=1200000,RESOLUTION=1920x1080\nmid/index.m3u8\n#EXT-X-STREAM-INF:BANDWIDTH=900000,RESOLUTION=1280x720\nhi/index.m3u8"

def demoMediaContent : String :=
  "#EXTM3U\n#EXTINF:4,\nhttp://cdn.com/v/1.ts\n#EXTINF:4,\nhttp://cdn.com/v/2.ts\n#EXTINF:4,\nhttp://ads.com/x/ad.ts\n#EXTINF:4,\nhttp://cdn.com/v/3.ts\n#EXTINF:4,\nhttp://cdn.com/v/4.ts"

def demoFetchMaster (u : String) : Option String :=
  if u = "http://h/master.m3u8" then some demoMasterContent
  else if u = "http://h/mid/index.m3u8" then some demoMediaContent
  else none

/-- Witness for C7: on a concrete master playlist (`demoMasterContent`),
both sanitizers recurse into the resolved 1200000-bandwidth variant, and
the selection decomposition holds for its parsed variants. -/
theorem master_variant_selection_witness :
    (fetchAndCleanM3u8V1 demoFetchMaster demoToAbs demoFp "http://h/master.m3u8" 0
      = fetchAndCleanM3u8V1 demoFetchMaster demoToAbs demoFp "http://h/mid/index.m3u8" 1 ∧
     fetchAndCleanM3u8V2 demoFetchMaster demoToAbs demoFp "http://h/master.m3u8" 0
      = fetchAndCleanM3u8V2 demoFetchMaster demoToAbs demoFp "http://h/mid/index.m3u8" 1) ∧
    (∃ l1 w l2,
      [((500000 : Int), "low/index.m3u8"), (1200000, "mid/index.m3u8"),
       (900000, "hi/index.m3u8")] = l1 ++ w :: l2 ∧
      selectBestUrl demoVariantLines = some w.2 ∧
      (∀ u ∈ l1, u.1 < w.1) ∧
      (∀ u ∈ [((500000 : Int), "low/index.m3u8"), (1200000, "mid/index.m3u8"),
              (900000, "hi/index.m3u8")], u.1 ≤ w.1)) := by
  constructor
  · have h := master_variant_selection.1 demoFetchMaster demoToAbs demoFp
      "http://h/master.m3u8" 0 demoMasterContent "mid/index.m3u8"
      (by decide) (by rfl) (by decide) (by decide)
    exact h
  · exact master_variant_selection.2.1 demoVariantLines
      (500000, "low/index.m3u8")
      [(1200000, "mid/index.m3u8"), (900000, "hi/index.m3u8")] (by decide)

/-! ### Removed-segment count (claim C3)

The two sanitizer copies disagree: `part_001` increments `removedCount`
by one when `depth > 0`, `part_002` returns `segments.length - maxC`
unadjusted. -/

/-- The playlist `demoMediaContent` cleaned of its ad segment. -/
def demoCleanedContent : String :=
  "#EXTM3U\n#EXTINF:4,\nhttp://cdn.com/v/1.ts\n#EXTINF:4,\nhttp://cdn.com/v/2.ts\n#EXTINF:4,\nhttp://cdn.com/v/3.ts\n#EXTINF:4,\nhttp://cdn.com/v/4.ts"

/-- C3 (amended): when a sanitization strips segments, the returned
`removedCount` equals the total segment count minus the dominant
cluster's count; the `part_001` copy (V1) additionally increments it by
one exactly when the result was reached via master-playlist recursion
(`depth > 0`), while the `part_002` copy (V2) returns it without that
adjustment. -/
theorem sanitize_removedCount
    (fetchFn : String → Option String) (toAbs : String → String → String)
    (fpOf : String → Option String) (url : String) (depth : Nat) (content : String)
    (hd : depth ≤ 3) (hf : fetchFn url = some content)
    (hm : containsStreamInf content = false)
    (hcond : ¬ ((mediaSegments toAbs fpOf url (splitLines content) 0).length = 0 ∨
      5 * (dominantPair (mediaSegments toAbs fpOf url (splitLines content) 0)).2 <
        2 * (mediaSegments toAbs fpOf url (splitLines content) 0).length)) :
    (∃ cleaned log,
      fetchAndCleanM3u8V1 fetchFn toAbs fpOf url depth = .ok ⟨cleaned,
        (if depth > 0 then
          (mediaSegments toAbs fpOf url (splitLines content) 0).length -
            (dominantPair (mediaSegments toAbs fpOf url (splitLines content) 0)).2 + 1
         else
          (mediaSegments toAbs fpOf url (splitLines content) 0).length -
            (dominantPair (mediaSegments toAbs fpOf url (splitLines content) 0)).2), log⟩) ∧
    (∃ cleaned log,
      fetchAndCleanM3u8V2 fetchFn toAbs fpOf url depth = .ok ⟨cleaned,
        (mediaSegments toAbs fpOf url (splitLines content) 0).length -
          (dominantPair (mediaSegments toAbs fpOf url (splitLines content) 0)).2, log⟩) :=
  ⟨⟨_, _, fetchAndCleanM3u8V1_strip fetchFn toAbs fpOf url depth content hd hf hm hcond⟩,
   ⟨_, _, fetchAndCleanM3u8V2_strip fetchFn toAbs fpOf url depth content hd hf hm hcond⟩⟩

/-- Witness for C3 (amended): stripping the demo media playlist at
recursion depth 1 yields `removedCount` 1 + 1 = 2 in V1 and 1 in V2. -/
theorem sanitize_removedCount_witness :
    (∃ cleaned log,
      fetchAndCleanM3u8V1 demoFetchMaster demoToAbs demoFp "http://h/mid/index.m3u8" 1
        = .ok ⟨cleaned, 2, log⟩) ∧
    (∃ cleaned log,
      fetchAndCleanM3u8V2 demoFetchMaster demoToAbs demoFp "http://h/mid/index.m3u8" 1
        = .ok ⟨cleaned, 1, log⟩) := by
  have h := sanitize_removedCount demoFetchMaster demoToAbs demoFp
    "http://h/mid/index.m3u8" 1 demoMediaContent
    (by decide) (by rfl) (by decide) (by decide)
  exact h

/-- Counterexample for C3 as stated: a sanitization that strips one of
five segments and is reached via master-playlist recursion returns
`removedCount = 1` (not the `1 + 1 = 2` the claim requires) in the
`part_002` copy of the sanitizer. -/
theorem sanitize_removedCount_cex :
    containsStreamInf demoMasterContent = true ∧
    fetchAndCleanM3u8V2 demoFetchMaster demoToAbs demoFp "http://h/master.m3u8" 0
      = .ok ⟨demoCleanedContent, 1, "已移除 1 分片"⟩ ∧
    (mediaSegments demoToAbs demoFp "http://h/mid/index.m3u8"
        (splitLines demoMediaContent) 0).length -
      (dominantPair (mediaSegments demoToAbs demoFp "http://h/mid/index.m3u8"
        (splitLines demoMediaContent) 0)).2 = 1 ∧
    ¬ (1 : Nat) = 1 + 1 := by
  refine ⟨by decide, ?_, by decide, by decide⟩
  have h1 := fetchAndCleanM3u8V2_master_step demoFetchMaster demoToAbs demoFp
    "http://h/master.m3u8" 0 demoMasterContent "mid/index.m3u8"
    (by decide) (by rfl) (by decide) (by decide)
  have h2 := fetchAndCleanM3u8V2_strip demoFetchMaster demoToAbs demoFp
    (demoToAbs "mid/index.m3u8" "http://h/master.m3u8") 1 demoMediaContent
    (by decide) (by rfl) (by decide) (by decide)
  rw [h1, h2]
  rfl

/-! ### The dominant cluster is never removed (claim C2) -/

theorem mediaSegments_mem_spec (toAbs : String → String → String)
    (fpOf : String → Option String) (url : String) :
    ∀ (ls : List String) (i n : Nat) (f : String),
      (n, f) ∈ mediaSegments toAbs fpOf url ls i →
      i ≤ n ∧ n - i < ls.length ∧
      (trimStr (ls.getD (n - i) "") = "" ||
        strStarts (trimStr (ls.getD (n - i) "")) "#") = false ∧
      fpOf (toAbs (trimStr (ls.getD (n - i) "")) url) = some f := by
  intro ls
  induction ls with
  | nil => intro i n f h; simp [mediaSegments] at h
  | cons l ls ih =>
    intro i n f h
    unfold mediaSegments at h
    by_cases hskip : (trimStr l = "" || strStarts (trimStr l) "#") = true
    · rw [if_pos hskip] at h
      obtain ⟨h1, h2, h3, h4⟩ := ih (i + 1) n f h
      have hni : n - i = (n - (i + 1)) + 1 := by omega
      refine ⟨by omega, by simp only [List.length_cons]; omega, ?_, ?_⟩
      · rw [hni, List.getD_cons_succ]; exact h3
      · rw [hni, List.getD_cons_succ]; exact h4
    · rw [if_neg hskip] at h
      have hcondf : (trimStr l = "" || strStarts (trimStr l) "#") = false :=
        Bool.not_eq_true _ ▸ (by simpa using hskip)
      have htail : (n, f) ∈ mediaSegments toAbs fpOf url ls (i + 1) →
          i ≤ n ∧ n - i < (l :: ls).length ∧
          (trimStr ((l :: ls).getD (n - i) "") = "" ||
            strStarts (trimStr ((l :: ls).getD (n - i) "")) "#") = false ∧
          fpOf (toAbs (trimStr ((l :: ls).getD (n - i) "")) url) = some f := by
        intro hmem
        obtain ⟨h1, h2, h3, h4⟩ := ih (i + 1) n f hmem
        have hni : n - i = (n - (i + 1)) + 1 := by omega
        refine ⟨by omega, by simp only [List.length_cons]; omega, ?_, ?_⟩
        · rw [hni, List.getD_cons_succ]; exact h3
        · rw [hni, List.getD_cons_succ]; exact h4
      cases hfp : fpOf (toAbs (trimStr l) url) with
      | none => rw [hfp] at h; exact htail h
      | some f0 =>
        rw [hfp] at h
        rcases List.mem_cons.mp h with heq | hmem
        · rw [Prod.mk.injEq] at heq
          obtain ⟨hn, hf⟩ := heq
          subst hn
          subst hf
          refine ⟨le_refl _, by simp, ?_, ?_⟩
          · simpa using hcondf
          · simpa using hfp
        · exact htail hmem

/-- Segment fingerprints are determined by the segment's index. -/
theorem mediaSegments_deterministic (toAbs : String → String → String)
    (fpOf : String → Option String) (url : String) (ls : List String)
    (n : Nat) (f f' : String)
    (h : (n, f) ∈ mediaSegments toAbs fpOf url ls 0)
    (h' : (n, f') ∈ mediaSegments toAbs fpOf url ls 0) : f = f' := by
  have s1 := (mediaSegments_mem_spec toAbs fpOf url ls 0 n f h).2.2.2
  have s2 := (mediaSegments_mem_spec toAbs fpOf url ls 0 n f' h').2.2.2
  rw [s1] at s2
  exact (Option.some.injEq .. ▸ s2)

theorem isMetaDirective_starts_hash {l : String} (h : isMetaDirective l = true) :
    strStarts l "#" = true := by
  unfold isMetaDirective at h
  simp only [Bool.or_eq_true] at h
  rcases h with ((h | h) | h) | h <;>
    exact strStarts_trans_of_prefix (by decide) h

/-- Every index added by the backward walk holds a line starting with `#`. -/
theorem traceBack_mem_hash (lines : List String) :
    ∀ (j x : Nat), x ∈ traceBack lines j →
      strStarts (trimStr (lines.getD x "")) "#" = true := by
  intro j
  induction j with
  | zero =>
    intro x hx
    simp only [traceBack] at hx
    by_cases hm : isMetaDirective (trimStr (lines.getD 0 ""))
    · simp only [hm, if_true, List.mem_singleton] at hx
      subst hx
      exact isMetaDirective_starts_hash hm
    · rw [if_neg hm] at hx
      simp at hx
  | succ k ih =>
    intro x hx
    simp only [traceBack] at hx
    by_cases hm : isMetaDirective (trimStr (lines.getD (k + 1) ""))
    · simp only [hm, if_true, List.mem_cons] at hx
      rcases hx with h | h
      · subst h; exact isMetaDirective_starts_hash hm
      · exact ih x h
    · simp only [hm, Bool.false_eq_true, if_false] at hx
      by_cases h2 : (!(strStarts (trimStr (lines.getD (k + 1) "")) "#EXT") &&
          strStarts (trimStr (lines.getD (k + 1) "")) "#") = true
      · rw [if_pos h2] at hx; exact ih x hx
      · rw [if_neg h2] at hx
        by_cases h3 : trimStr (lines.getD (k + 1) "") = ""
        · rw [if_pos h3] at hx; exact ih x hx
        · rw [if_neg h3] at hx; simp at hx

/-- Every removed index is either a minority segment or comes from a
minority segment's backward walk. -/
theorem mem_linesToRemoveList (lines : List String) (dom : String) :
    ∀ (segs : List (Nat × String)) (x : Nat),
      x ∈ linesToRemoveList lines dom segs →
      ∃ p ∈ segs, p.2 ≠ dom ∧
        (x = p.1 ∨ ∃ i, p.1 = i + 1 ∧ x ∈ traceBack lines i) := by
  intro segs
  induction segs with
  | nil => intro x hx; simp [linesToRemoveList] at hx
  | cons p rest ih =>
    intro x hx
    obtain ⟨idx, f⟩ := p
    unfold linesToRemoveList at hx
    by_cases hdom : f ≠ dom
    · rw [if_pos hdom] at hx
      rcases List.mem_append.mp hx with h | h
      · rcases List.mem_cons.mp h with h' | h'
        · exact ⟨(idx, f), List.mem_cons_self _ _, hdom, Or.inl h'⟩
        · by_cases hz : idx = 0
          · rw [hz] at h'; simp at h'
          · obtain ⟨i, rfl⟩ := Nat.exists_eq_succ_of_ne_zero hz
            exact ⟨(i + 1, f), List.mem_cons_self _ _, hdom,
              Or.inr ⟨i, rfl, h'⟩⟩
      · obtain ⟨q, hq, hqd, hqx⟩ := ih x h
        exact ⟨q, List.mem_cons_of_mem _ hq, hqd, hqx⟩
    · rw [if_neg hdom] at hx
      obtain ⟨q, hq, hqd, hqx⟩ := ih x hx
      exact ⟨q, List.mem_cons_of_mem _ hq, hqd, hqx⟩

/-- A surviving non-blank non-comment line appears (absolutized) in the
rebuilt playlist. -/
theorem rebuildLines_keeps (toAbs : String → String → String) (url : String)
    (rm : List Nat) :
    ∀ (ls : List String) (i j : Nat), j < ls.length →
      (i + j) ∉ rm →
      ¬ trimStr (ls.getD j "") = "" →
      strStarts (trimStr (ls.getD j "")) "#" = false →
      toAbs (trimStr (ls.getD j "")) url ∈ rebuildLines toAbs url rm ls i := by
  intro ls
  induction ls with
  | nil => intro i j hj; simp at hj
  | cons l ls ih =>
    intro i j hj hrm hne hnh
    unfold rebuildLines
    cases j with
    | zero =>
      simp only [List.getD_cons_zero] at hne hnh ⊢
      rw [if_neg (by simpa using hrm)]
      simp only [if_neg hne, hnh, Bool.false_eq_true, if_false]
      exact List.mem_cons_self _ _
    | succ k =>
      simp only [List.getD_cons_succ] at hne hnh ⊢
      have hk : k < ls.length := by simpa using hj
      have hrm' : (i + 1) + k ∉ rm := by
        intro hc; exact hrm (by rw [show i + (k + 1) = (i + 1) + k by omega]; exact hc)
      have hmem := ih (i + 1) k hk hrm' hne hnh
      by_cases h1 : i ∈ rm
      · rw [if_pos h1]; exact hmem
      · rw [if_neg h1]
        by_cases h2 : trimStr l = ""
        · rw [if_pos h2]; exact hmem
        · rw [if_neg h2]
          by_cases h3 : strStarts (trimStr l) "#" = true
          · simp only [h3, if_true]
            exact List.mem_cons_of_mem _ hmem
          · simp only [Bool.not_eq_true] at h3
            simp only [h3, Bool.false_eq_true, if_false]
            exact List.mem_cons_of_mem _ hmem

/-- C2: in a rewritten media playlist (dominant-cluster ratio at least
0.4), no segment of the dominant fingerprint cluster is ever in the
removal set — neither directly nor through the backward metadata walk —
and its absolutized URI appears in the rebuilt playlist. -/
theorem dominant_cluster_preserved (toAbs : String → String → String)
    (fpOf : String → Option String) (url : String) (lines : List String) (idx : Nat)
    (hratio : ¬ ((mediaSegments toAbs fpOf url lines 0).length = 0 ∨
      5 * (dominantPair (mediaSegments toAbs fpOf url lines 0)).2 <
        2 * (mediaSegments toAbs fpOf url lines 0).length))
    (hmem : (idx, (dominantPair (mediaSegments toAbs fpOf url lines 0)).1)
      ∈ mediaSegments toAbs fpOf url lines 0) :
    idx ∉ linesToRemoveList lines
      (dominantPair (mediaSegments toAbs fpOf url lines 0)).1
      (mediaSegments toAbs fpOf url lines 0) ∧
    toAbs (trimStr (lines.getD idx "")) url ∈
      rebuildLines toAbs url
        (linesToRemoveList lines
          (dominantPair (mediaSegments toAbs fpOf url lines 0)).1
          (mediaSegments toAbs fpOf url lines 0)) lines 0 := by
  have hspec := mediaSegments_mem_spec toAbs fpOf url lines 0 idx _ hmem
  simp only [Nat.sub_zero] at hspec
  obtain ⟨-, hlen, hcond, -⟩ := hspec
  have hcond' := Bool.or_eq_false_iff.mp hcond
  have hnrm : idx ∉ linesToRemoveList lines
      (dominantPair (mediaSegments toAbs fpOf url lines 0)).1
      (mediaSegments toAbs fpOf url lines 0) := by
    intro hx
    obtain ⟨p, hp, hpd, hcase⟩ := mem_linesToRemoveList lines _ _ idx hx
    rcases hcase with h | ⟨i, hpi, htr⟩
    · obtain ⟨pn, pf⟩ := p
      simp only at h hpd
      subst h
      exact hpd (mediaSegments_deterministic toAbs fpOf url lines idx pf _ hp hmem)
    · have := traceBack_mem_hash lines i idx htr
      rw [hcond'.2] at this
      exact Bool.false_ne_true this
  refine ⟨hnrm, ?_⟩
  have h0 : (0 + idx) ∉ linesToRemoveList lines
      (dominantPair (mediaSegments toAbs fpOf url lines 0)).1
      (mediaSegments toAbs fpOf url lines 0) := by simpa using hnrm
  exact rebuildLines_keeps toAbs url _ lines 0 idx hlen h0
    (by simpa using hcond'.1) hcond'.2

/-- Witness for C2 at the demo media playlist: the first dominant-cluster
segment (index 2) survives sanitization. -/
theorem dominant_cluster_preserved_witness :
    (2 : Nat) ∉ linesToRemoveList (splitLines demoMediaContent)
      (dominantPair (mediaSegments demoToAbs demoFp "http://h/mid/index.m3u8"
        (splitLines demoMediaContent) 0)).1
      (mediaSegments demoToAbs demoFp "http://h/mid/index.m3u8"
        (splitLines demoMediaContent) 0) ∧
    demoToAbs (trimStr ((splitLines demoMediaContent).getD 2 "")) "http://h/mid/index.m3u8" ∈
      rebuildLines demoToAbs "http://h/mid/index.m3u8"
        (linesToRemoveList (splitLines demoMediaContent)
          (dominantPair (mediaSegments demoToAbs demoFp "http://h/mid/index.m3u8"
            (splitLines demoMediaContent) 0)).1
          (mediaSegments demoToAbs demoFp "http://h/mid/index.m3u8"
            (splitLines demoMediaContent) 0)) (splitLines demoMediaContent) 0 :=
  dominant_cluster_preserved demoToAbs demoFp "http://h/mid/index.m3u8"
    (splitLines demoMediaContent) 2 (by decide) (by decide)

/-! ## Aggregate-search merge (`doSearch`, `src/unnamed/part_003` lines 89–111)

Search hits are merged into a `Map` keyed by the normalized title; the
map is modelled as an insertion-ordered association list (JS `Map`
preserves insertion order and `Map.set` on an existing key keeps its
position). -/

/-- One entry of `availableSources`. -/
structure SourceRef where
  api : String
  name : String
  vodId : String
deriving Repr, DecidableEq

/-- The fields of a search hit that the merge reads or writes. -/
structure Movie where
  id : String
  title : String
  year : String
  image : String
  sourceApi : String
  sourceName : String
  availableSources : Option (List SourceRef)
deriving Repr, DecidableEq

/-- `(item.title || '').trim().toLowerCase()`. -/
def titleKey (m : Movie) : String := lowerStr (trimStr m.title)

/-- `{ api: m.sourceApi, name: m.sourceName, vodId: m.id }`. -/
def selfRef (m : Movie) : SourceRef := ⟨m.sourceApi, m.sourceName, m.id⟩

/-- The body of the merge loop for an item whose key is already present:
initialize `availableSources` when missing, append the item's source
entry unless its api is already listed, and backfill `year` (when empty)
and `image` (when empty or shorter than 10 characters). -/
def mergeInto (existing item : Movie) : Movie :=
  let sources0 := match existing.availableSources with
    | none => [selfRef existing]
    | some l => l
  let sources1 :=
    if item.sourceApi ≠ "" ∧ item.sourceName ≠ "" then
      if sources0.any (fun s => decide (s.api = item.sourceApi)) then sources0
      else sources0 ++ [⟨item.sourceApi, item.sourceName, item.id⟩]
    else sources0
  { existing with
    availableSources := some sources1
    year := if existing.year = "" ∧ item.year ≠ "" then item.year else existing.year
    image := if (existing.image = "" ∨ existing.image.length < 10) ∧ item.image ≠ ""
             then item.image else existing.image }

/-- `resultGroup.get(key)`. -/
def lookupKey : List (String × Movie) → String → Option Movie
  | [], _ => none
  | (k, m) :: rest, key => if k = key then some m else lookupKey rest key

/-- In-place update of the (unique) entry holding `key`, keeping its
position — JS `Map` mutation semantics. -/
def replaceKey : List (String × Movie) → String → Movie → List (String × Movie)
  | [], _, _ => []
  | (k, m) :: rest, key, m' =>
    if k = key then (k, m') :: rest else (k, m) :: replaceKey rest key m'

/-- One iteration of `flatResults.forEach`: merge into the canonical
record when the key exists, otherwise insert the item as the canonical
record of a new group (seeding `availableSources` with itself). -/
def groupStep (group : List (String × Movie)) (item : Movie) : List (String × Movie) :=
  match lookupKey group (titleKey item) with
  | some existing => replaceKey group (titleKey item) (mergeInto existing item)
  | none => group ++ [(titleKey item, { item with availableSources := some [selfRef item] })]

/-- `Array.from(resultGroup.values())` after folding all flat results. -/
def mergeResults (items : List Movie) : List Movie :=
  (items.foldl groupStep []).map (·.2)

theorem lookupKey_none_iff (group : List (String × Movie)) (key : String) :
    lookupKey group key = none ↔ key ∉ group.map (·.1) := by
  induction group with
  | nil => simp [lookupKey]
  | cons p rest ih =>
    obtain ⟨k, m⟩ := p
    simp only [lookupKey, List.map_cons, List.mem_cons]
    by_cases hk : k = key
    · simp [hk]
    · simp only [if_neg hk, ih]
      constructor
      · rintro h (h1 | h1)
        · exact hk h1.symm
        · exact h h1
      · intro h h1
        exact h (Or.inr h1)

theorem lookupKey_mem {group : List (String × Movie)} {key : String} {m : Movie}
    (h : lookupKey group key = some m) : (key, m) ∈ group := by
  induction group with
  | nil => simp [lookupKey] at h
  | cons p rest ih =>
    obtain ⟨k, m0⟩ := p
    simp only [lookupKey] at h
    by_cases hk : k = key
    · rw [if_pos hk] at h
      subst hk
      rw [Option.some.injEq] at h
      subst h
      exact List.mem_cons_self _ _
    · rw [if_neg hk] at h
      exact List.mem_cons_of_mem _ (ih h)

theorem replaceKey_map_fst (group : List (String × Movie)) (key : String) (m' : Movie) :
    (replaceKey group key m').map (·.1) = group.map (·.1) := by
  induction group with
  | nil => rfl
  | cons p rest ih =>
    obtain ⟨k, m⟩ := p
    simp only [replaceKey]
    by_cases hk : k = key
    · simp [if_pos hk]
    · simp [if_neg hk, ih]

theorem mem_replaceKey {group : List (String × Movie)} {key : String} {m' : Movie}
    {p : String × Movie} (h : p ∈ replaceKey group key m') :
    p ∈ group ∨ p = (key, m') := by
  induction group with
  | nil => simp [replaceKey] at h
  | cons q rest ih =>
    obtain ⟨k, m⟩ := q
    simp only [replaceKey] at h
    by_cases hk : k = key
    · rw [if_pos hk] at h
      rcases List.mem_cons.mp h with h1 | h1
      · subst hk; exact Or.inr h1
      · exact Or.inl (List.mem_cons_of_mem _ h1)
    · rw [if_neg hk] at h
      rcases List.mem_cons.mp h with h1 | h1
      · exact Or.inl (h1 ▸ List.mem_cons_self _ _)
      · rcases ih h1 with h2 | h2
        · exact Or.inl (List.mem_cons_of_mem _ h2)
        · exact Or.inr h2

theorem find?_append_or {α : Type} (l1 l2 : List α) (p : α → Bool) :
    (l1 ++ l2).find? p = match l1.find? p with
      | some x => some x
      | none => l2.find? p := by
  induction l1 with
  | nil => simp
  | cons x xs ih =>
    by_cases hx : p x
    · simp [List.find?, hx]
    · simp only [List.cons_append, List.find?, hx]
      exact ih

theorem dedupFirst_append_singleton (l : List String) (x : String) :
    dedupFirst (l ++ [x]) =
      if x ∈ dedupFirst l then dedupFirst l else dedupFirst l ++ [x] := by
  unfold dedupFirst
  rw [List.foldl_append]
  rfl

theorem find?_none_of_key_not_mem {items : List Movie} {key : String}
    (h : key ∉ items.map titleKey) :
    items.find? (fun it => decide (titleKey it = key)) = none := by
  rw [List.find?_eq_none]
  intro x hx
  simp only [decide_eq_true_eq]
  intro hk
  exact h (List.mem_map.mpr ⟨x, hx, hk⟩)

theorem mergeInto_apis_distinct (e i : Movie)
    (he : ∀ l, e.availableSources = some l → l.Pairwise (fun a b => a.api ≠ b.api)) :
    ∀ l, (mergeInto e i).availableSources = some l →
      l.Pairwise (fun a b => a.api ≠ b.api) := by
  intro l hl
  unfold mergeInto at hl
  simp only [Option.some.injEq] at hl
  generalize hs : (match e.availableSources with
      | none => [selfRef e]
      | some l => l) = sources0 at hl
  have hs0 : sources0.Pairwise (fun a b => a.api ≠ b.api) := by
    cases hav : e.availableSources with
    | none => rw [hav] at hs; rw [← hs]; simp
    | some l0 => rw [hav] at hs; rw [← hs]; exact he l0 hav
  subst hl
  by_cases hguard : i.sourceApi ≠ "" ∧ i.sourceName ≠ ""
  · rw [if_pos hguard]
    by_cases hany : sources0.any (fun s => decide (s.api = i.sourceApi)) = true
    · rw [if_pos hany]; exact hs0
    · rw [if_neg hany]
      rw [List.pairwise_append]
      refine ⟨hs0, by simp, ?_⟩
      intro a ha b hb
      simp only [List.mem_singleton] at hb
      subst hb
      show a.api ≠ i.sourceApi
      simp only [List.any_eq_true, decide_eq_true_eq] at hany
      intro hc
      exact hany ⟨a, ha, hc⟩
  · rw [if_neg hguard]; exact hs0

/-- The merge-fold invariant: the group keys are the distinct normalized
titles of the processed items in first-encounter order; every group entry
is keyed by its record's normalized title, carries the identity fields of
the first processed item of that title, and lists each api at most once. -/
def GroupInv (processed : List Movie) (group : List (String × Movie)) : Prop :=
  group.map (·.1) = dedupFirst (processed.map titleKey) ∧
  ∀ p ∈ group,
    titleKey p.2 = p.1 ∧
    (∃ first, processed.find? (fun it => decide (titleKey it = p.1)) = some first ∧
      p.2.id = first.id ∧ p.2.title = first.title ∧
      p.2.sourceApi = first.sourceApi ∧ p.2.sourceName = first.sourceName) ∧
    (∀ l, p.2.availableSources = some l → l.Pairwise (fun a b => a.api ≠ b.api))

theorem groupStep_inv (processed : List Movie) (group : List (String × Movie))
    (item : Movie) (h : GroupInv processed group) :
    GroupInv (processed ++ [item]) (groupStep group item) := by
  obtain ⟨hkeys, hent⟩ := h
  unfold groupStep
  cases hlk : lookupKey group (titleKey item) with
  | none =>
    show GroupInv (processed ++ [item])
      (group ++ [(titleKey item, { item with availableSources := some [selfRef item] })])
    have hkey_notin : titleKey item ∉ group.map (·.1) :=
      (lookupKey_none_iff group (titleKey item)).mp hlk
    have hkey_notin' : titleKey item ∉ processed.map titleKey := by
      intro hc
      exact hkey_notin (by
        rw [hkeys, mem_dedupFirst]
        exact hc)
    constructor
    · rw [List.map_append, List.map_append]
      simp only [List.map_cons, List.map_nil]
      rw [dedupFirst_append_singleton]
      rw [if_neg (by rw [← hkeys]; exact hkey_notin)]
      rw [hkeys]
    · intro p hp
      rcases List.mem_append.mp hp with hpg | hpn
      · obtain ⟨ht, ⟨first, hfind, hids⟩, hdist⟩ := hent p hpg
        refine ⟨ht, ⟨first, ?_, hids⟩, hdist⟩
        rw [find?_append_or, hfind]
      · rw [List.mem_singleton] at hpn
        subst hpn
        refine ⟨rfl, ⟨item, ?_, rfl, rfl, rfl, rfl⟩, ?_⟩
        · rw [find?_append_or, find?_none_of_key_not_mem hkey_notin']
          simp [List.find?]
        · intro l hl
          simp only [Option.some.injEq] at hl
          subst hl
          simp
  | some existing =>
    show GroupInv (processed ++ [item])
      (replaceKey group (titleKey item) (mergeInto existing item))
    have hmem : (titleKey item, existing) ∈ group := lookupKey_mem hlk
    have hkey_in : titleKey item ∈ group.map (·.1) :=
      List.mem_map.mpr ⟨(titleKey item, existing), hmem, rfl⟩
    obtain ⟨hte, ⟨efirst, hefind, heids⟩, hedist⟩ := hent _ hmem
    constructor
    · rw [replaceKey_map_fst, List.map_append]
      simp only [List.map_cons, List.map_nil]
      rw [dedupFirst_append_singleton]
      rw [if_pos (by rw [← hkeys]; exact hkey_in)]
      exact hkeys
    · intro p hp
      rcases mem_replaceKey hp with hpg | hpn
      · obtain ⟨ht, ⟨first, hfind, hids⟩, hdist⟩ := hent p hpg
        refine ⟨ht, ⟨first, ?_, hids⟩, hdist⟩
        rw [find?_append_or, hfind]
      · subst hpn
        refine ⟨hte, ⟨efirst, ?_, heids⟩, ?_⟩
        · rw [find?_append_or, hefind]
        · exact mergeInto_apis_distinct existing item hedist

theorem groupFold_inv (items : List Movie) :
    ∀ (processed : List Movie) (group : List (String × Movie)),
      GroupInv processed group →
      GroupInv (processed ++ items) (items.foldl groupStep group) := by
  induction items with
  | nil => intro processed group h; simpa using h
  | cons item rest ih =>
    intro processed group h
    rw [List.foldl_cons]
    have h1 := groupStep_inv processed group item h
    have h2 := ih (processed ++ [item]) _ h1
    rwa [List.append_assoc] at h2

/-- C4 (amended): the merge groups flat results by trimmed, lowercased
title (the group keys are the distinct normalized titles in
first-encounter order); the canonical record of each group keeps the
identity fields of the first record encountered with that title; every
merged record lists each `api` at most once in `availableSources`, a
subsequent match's source entry being appended only when its api is not
yet listed; `year` is backfilled only when the canonical's is empty and
the match's is not, while the poster `image` is backfilled when the
canonical's is empty **or shorter than 10 characters** and the match's is
non-empty. -/
theorem merge_grouping_spec (items : List Movie) :
    ((items.foldl groupStep []).map (·.1) = dedupFirst (items.map titleKey)) ∧
    (∀ m ∈ mergeResults items,
      ∃ first, items.find? (fun it => decide (titleKey it = titleKey m)) = some first ∧
        m.id = first.id ∧ m.title = first.title ∧
        m.sourceApi = first.sourceApi ∧ m.sourceName = first.sourceName) ∧
    (∀ m ∈ mergeResults items, ∀ l, m.availableSources = some l →
      l.Pairwise (fun a b => a.api ≠ b.api)) ∧
    (∀ e i : Movie,
      (mergeInto e i).year = (if e.year = "" ∧ i.year ≠ "" then i.year else e.year) ∧
      (mergeInto e i).image =
        (if (e.image = "" ∨ e.image.length < 10) ∧ i.image ≠ ""
         then i.image else e.image) ∧
      (∀ l0, e.availableSources = some l0 →
        i.sourceApi ≠ "" → i.sourceName ≠ "" →
        ¬ (∃ s ∈ l0, s.api = i.sourceApi) →
        (mergeInto e i).availableSources
          = some (l0 ++ [⟨i.sourceApi, i.sourceName, i.id⟩]))) := by
  have hinv := groupFold_inv items [] [] ⟨rfl, by simp⟩
  rw [List.nil_append] at hinv
  obtain ⟨hkeys, hent⟩ := hinv
  refine ⟨hkeys, ?_, ?_, ?_⟩
  · intro m hm
    obtain ⟨p, hp, hpm⟩ := List.mem_map.mp hm
    obtain ⟨ht, ⟨first, hfind, hids⟩, -⟩ := hent p hp
    subst hpm
    refine ⟨first, ?_, hids⟩
    rwa [ht]
  · intro m hm l hl
    obtain ⟨p, hp, hpm⟩ := List.mem_map.mp hm
    obtain ⟨-, -, hdist⟩ := hent p hp
    subst hpm
    exact hdist l hl
  · intro e i
    refine ⟨rfl, rfl, ?_⟩
    intro l0 hl0 hapi hname hnodup
    have hany : l0.any (fun s => decide (s.api = i.sourceApi)) = false := by
      rw [List.any_eq_false]
      intro s hs
      simp only [decide_eq_true_eq]
      exact fun hc => hnodup ⟨s, hs, hc⟩
    simp [mergeInto, hl0, hany, hapi, hname]

/-- First record of the "inception" group: non-empty but short poster. -/
def demoCanonical : Movie :=
  ⟨"1", "Inception", "2010", "x.jpg", "s1.api", "Source One", none⟩

/-- A later match with the same normalized title and a full poster URL. -/
def demoMatch : Movie :=
  ⟨"2", "inception ", "1999", "http://cdn/p.jpg", "s2.api", "Source Two", none⟩

/-- The merged record the code produces for the two demo hits. -/
def demoMergedRecord : Movie :=
  ⟨"1", "Inception", "2010", "http://cdn/p.jpg", "s1.api", "Source One",
    some [⟨"s1.api", "Source One", "1"⟩, ⟨"s2.api", "Source Two", "2"⟩]⟩

/-- Counterexample for C4 as stated: the canonical record's poster image
is backfilled from a later match although the canonical's poster
("x.jpg") is *not* empty — the code also backfills whenever the canonical
poster is shorter than 10 characters. (The year, whose canonical value is
non-empty, is correctly left alone.) -/
theorem merge_poster_backfill_cex :
    demoCanonical.image = "x.jpg" ∧ ¬ demoCanonical.image = "" ∧
    demoMatch.image = "http://cdn/p.jpg" ∧
    mergeResults [demoCanonical, demoMatch] = [demoMergedRecord] ∧
    demoMergedRecord.image = "http://cdn/p.jpg" ∧
    ¬ "http://cdn/p.jpg" = "x.jpg" := by decide

/-- Witness for C4 (amended) on the two demo hits. -/
theorem merge_grouping_spec_witness :
    (([demoCanonical, demoMatch].foldl groupStep []).map (·.1)
      = dedupFirst ([demoCanonical, demoMatch].map titleKey)) ∧
    (∃ first, [demoCanonical, demoMatch].find?
        (fun it => decide (titleKey it = titleKey demoMergedRecord)) = some first ∧
        demoMergedRecord.id = first.id ∧ demoMergedRecord.title = first.title ∧
        demoMergedRecord.sourceApi = first.sourceApi ∧
        demoMergedRecord.sourceName = first.sourceName) ∧
    List.Pairwise (fun a b => a.api ≠ b.api)
      [(⟨"s1.api", "Source One", "1"⟩ : SourceRef), ⟨"s2.api", "Source Two", "2"⟩] ∧
    (mergeInto demoCanonical demoMatch).year
      = (if demoCanonical.year = "" ∧ demoMatch.year ≠ ""
         then demoMatch.year else demoCanonical.year) := by
  refine ⟨(merge_grouping_spec [demoCanonical, demoMatch]).1, ?_, ?_, ?_⟩
  · exact (merge_grouping_spec [demoCanonical, demoMatch]).2.1 demoMergedRecord
      (by decide)
  · exact (merge_grouping_spec [demoCanonical, demoMatch]).2.2.1 demoMergedRecord
      (by decide) [⟨"s1.api", "Source One", "1"⟩, ⟨"s2.api", "Source Two", "2"⟩]
      (by decide)
  · exact ((merge_grouping_spec [demoCanonical, demoMatch]).2.2.2
      demoCanonical demoMatch).1

/-! ## Source health scanner (`runSourceCheck`, `src/App.tsx` lines 424–478)

The sequential scan over `allSources`, with the network supplied as an
oracle `fetchRes : String → Option String` (`none` models a thrown
fetch). -/

/-- A source endpoint as the scanner sees it. -/
structure Source where
  name : String
  api : String
deriving Repr, DecidableEq

/-- The scanner's loop state. -/
structure ScanState where
  seenApis : List String
  working : List Source
  deadApis : List String
  duplicates : Nat
  dead : Nat
deriving Repr, DecidableEq

/-- The `maintenanceStats` record assembled after the loop. -/
structure MaintenanceStats where
  duplicates : Nat
  dead : Nat
  total : Nat
  cleanedList : List Source
  deadApis : List String
deriving Repr, DecidableEq

/-- `` `${s.api}${separator}ac=list` `` with `separator = s.api.includes('?') ? '&' : '?'`. -/
def testUrlOf (s : Source) : String :=
  s.api ++ (if hasSubstr s.api "?" then "&" else "?") ++ "ac=list"

/-- `result && (result.includes('vod') || ...)`; a thrown fetch (`none`)
lands in the `catch` and is dead. -/
def probeOk (fetchResult : Option String) : Bool :=
  match fetchResult with
  | none => false
  | some r =>
    if r = "" then false
    else hasSubstr r "vod" || hasSubstr r "list" || hasSubstr r "class" ||
      hasSubstr r "code\":200"

/-- One loop iteration: a source whose api was already recorded in
`seenApis` is tallied as a duplicate and skipped; otherwise it is probed,
and — only on success — pushed to `workingSources` *and* recorded in
`seenApis`. -/
def scanStep (fetchRes : String → Option String) (st : ScanState) (s : Source) : ScanState :=
  if s.api ∈ st.seenApis then { st with duplicates := st.duplicates + 1 }
  else if probeOk (fetchRes (testUrlOf s)) then
    { st with working := st.working ++ [s], seenApis := st.seenApis ++ [s.api] }
  else { st with dead := st.dead + 1, deadApis := st.deadApis ++ [s.api] }

/-- The whole scan loop from the empty state. -/
def scanFold (fetchRes : String → Option String) (sources : List Source) : ScanState :=
  sources.foldl (scanStep fetchRes) ⟨[], [], [], 0, 0⟩

/-- `runSourceCheck`: scan and assemble `maintenanceStats`. -/
def runSourceCheck (fetchRes : String → Option String) (allSources : List Source) :
    MaintenanceStats :=
  ⟨(scanFold fetchRes allSources).duplicates, (scanFold fetchRes allSources).dead,
   allSources.length, (scanFold fetchRes allSources).working,
   (scanFold fetchRes allSources).deadApis⟩

/-- The scan invariant: `seenApis` is exactly the api list of
`workingSources` (the code adds to `seenApis` only on a successful
probe), and the working list holds each api at most once. -/
def ScanInv (st : ScanState) : Prop :=
  st.seenApis = st.working.map (·.api) ∧
  st.working.Pairwise (fun a b => a.api ≠ b.api)

theorem scanStep_inv (fetchRes : String → Option String) (st : ScanState) (s : Source)
    (h : ScanInv st) : ScanInv (scanStep fetchRes st s) := by
  obtain ⟨h1, h2⟩ := h
  unfold scanStep
  by_cases hseen : s.api ∈ st.seenApis
  · rw [if_pos hseen]; exact ⟨h1, h2⟩
  · rw [if_neg hseen]
    by_cases hprobe : probeOk (fetchRes (testUrlOf s)) = true
    · rw [if_pos hprobe]
      refine ⟨by simp [h1], ?_⟩
      rw [List.pairwise_append]
      refine ⟨h2, by simp, ?_⟩
      intro a ha b hb
      rw [List.mem_singleton] at hb
      subst hb
      intro hc
      exact hseen (by rw [h1]; exact List.mem_map.mpr ⟨a, ha, hc⟩)
    · rw [if_neg hprobe]; exact ⟨h1, h2⟩

theorem scanFold_inv (fetchRes : String → Option String) :
    ∀ (sources : List Source) (st : ScanState), ScanInv st →
      ScanInv (sources.foldl (scanStep fetchRes) st) := by
  intro sources
  induction sources with
  | nil => intro st h; exact h
  | cons s rest ih =>
    intro st h
    rw [List.foldl_cons]
    exact ih _ (scanStep_inv fetchRes st s h)

/-- C6 (amended): a source whose API URL is byte-identical to an earlier
source's is skipped (tallied once in `duplicates`, not probed, excluded
from `workingSources`) exactly when some earlier identical source was
probed *working*; when every earlier identical occurrence was dead, the
source is probed again and classified on its own. The working list never
holds the same api twice. -/
theorem source_scan_duplicates (fetchRes : String → Option String) :
    (∀ (pre : List Source) (s : Source),
      (s.api ∈ (scanFold fetchRes pre).working.map (·.api) →
        scanFold fetchRes (pre ++ [s])
          = { scanFold fetchRes pre with
              duplicates := (scanFold fetchRes pre).duplicates + 1 }) ∧
      (s.api ∉ (scanFold fetchRes pre).working.map (·.api) →
        scanFold fetchRes (pre ++ [s]) = scanStep fetchRes (scanFold fetchRes pre) s ∧
        (scanFold fetchRes (pre ++ [s])).duplicates
          = (scanFold fetchRes pre).duplicates)) ∧
    (∀ sources : List Source,
      (runSourceCheck fetchRes sources).cleanedList.Pairwise (fun a b => a.api ≠ b.api) ∧
      (runSourceCheck fetchRes sources).cleanedList = (scanFold fetchRes sources).working) := by
  have hinv : ∀ sources, ScanInv (scanFold fetchRes sources) := fun sources =>
    scanFold_inv fetchRes sources ⟨[], [], [], 0, 0⟩ ⟨rfl, List.Pairwise.nil⟩
  constructor
  · intro pre s
    have happ : scanFold fetchRes (pre ++ [s])
        = scanStep fetchRes (scanFold fetchRes pre) s := by
      unfold scanFold
      rw [List.foldl_append]
      rfl
    constructor
    · intro hmem
      rw [happ]
      unfold scanStep
      rw [if_pos (by rw [(hinv pre).1]; exact hmem)]
    · intro hmem
      refine ⟨happ, ?_⟩
      rw [happ]
      unfold scanStep
      rw [if_neg (by rw [(hinv pre).1]; exact hmem)]
      by_cases hprobe : probeOk (fetchRes (testUrlOf s)) = true
      · rw [if_pos hprobe]
      · rw [if_neg hprobe]
  · intro sources
    exact ⟨(hinv sources).2, rfl⟩

/-- Two sources with byte-identical API URLs. -/
def demoSrcA : Source := ⟨"Mirror One", "http://dup.example/api.php"⟩

def demoSrcB : Source := ⟨"Mirror Two", "http://dup.example/api.php"⟩

/-- An oracle on which every probe throws. -/
def demoDeadFetch : String → Option String := fun _ => none

/-- An oracle on which every probe returns a MacCMS-looking body. -/
def demoGoodFetch : String → Option String :=
  fun _ => some "<list><video><vod_name>x</vod_name></video></list>"

/-- Counterexample for C6 as stated: with two byte-identical sources whose
probe throws, the first occurrence is dead, so the second is probed again
and also classified dead — `duplicateCount` is 0, not the 1 the claim
requires. -/
theorem source_scan_duplicates_cex :
    demoSrcA.api = demoSrcB.api ∧
    runSourceCheck demoDeadFetch [demoSrcA, demoSrcB]
      = ⟨0, 2, 2, [], ["http://dup.example/api.php", "http://dup.example/api.php"]⟩ ∧
    ¬ (0 : Nat) = 1 := by decide

/-- Witness for C6 (amended): when the first occurrence probes as working
the duplicate is tallied and the state is otherwise unchanged. -/
theorem source_scan_duplicates_witness :
    scanFold demoGoodFetch [demoSrcA, demoSrcB]
      = { scanFold demoGoodFetch [demoSrcA] with
          duplicates := (scanFold demoGoodFetch [demoSrcA]).duplicates + 1 } ∧
    (runSourceCheck demoGoodFetch [demoSrcA, demoSrcB]).cleanedList.Pairwise
      (fun a b => a.api ≠ b.api) := by
  constructor
  · exact ((source_scan_duplicates demoGoodFetch).1 [demoSrcA] demoSrcB).1 (by decide)
  · exact ((source_scan_duplicates demoGoodFetch).2 [demoSrcA, demoSrcB]).1

/-! ## Query cancellation (`doSearch`, `src/unnamed/part_003` lines 44–49
and 79–87)

The cancellation protocol is modelled as a step relation. A `start` event
is a new `doSearch` invocation: it aborts the controller of the current
generation (`abortControllerRef.current.abort()`) and installs a fresh
one. A `settle gen results` event is generation `gen`'s continuation
after `Promise.allSettled`: guarded by `if (signal.aborted) return;`, it
publishes its merged results (`onStateUpdate({results, ...})`) only when
its own signal was never aborted. Scheduling is single-threaded, so a
trace is an arbitrary interleaving of these events. -/

structure SearchSession where
  current : Option Nat
  aborted : List Nat
  published : Option (Nat × List Movie)
deriving Repr, DecidableEq

inductive SearchEvent where
  | start
  | settle (gen : Nat) (results : List Movie)
deriving Repr, DecidableEq

/-- One scheduler step. -/
def searchStep (s : SearchSession) (e : SearchEvent) : SearchSession :=
  match e with
  | .start =>
    match s.current with
    | some g => { s with current := some (g + 1), aborted := g :: s.aborted }
    | none => { s with current := some 0 }
  | .settle g res =>
    if g ∈ s.aborted then s
    else { s with published := some (g, res) }

/-- A whole trace of steps. -/
def searchRun (s : SearchSession) (es : List SearchEvent) : SearchSession :=
  es.foldl searchStep s

theorem searchStep_aborted_mono (s : SearchSession) (e : SearchEvent) {g : Nat}
    (h : g ∈ s.aborted) : g ∈ (searchStep s e).aborted := by
  cases e with
  | start =>
    cases hc : s.current with
    | some g' => simpa [searchStep, hc] using Or.inr h
    | none => simpa [searchStep, hc] using h
  | settle g' res =>
    by_cases ha : g' ∈ s.aborted
    · simpa [searchStep, ha] using h
    · simpa [searchStep, ha] using h

theorem searchRun_aborted_mono (es : List SearchEvent) :
    ∀ (s : SearchSession) {g : Nat}, g ∈ s.aborted → g ∈ (searchRun s es).aborted := by
  induction es with
  | nil => intro s g h; exact h
  | cons e rest ih =>
    intro s g h
    rw [searchRun, List.foldl_cons]
    exact ih _ (searchStep_aborted_mono s e h)

/-- C8: starting a new query aborts the current generation, and from then
on — across any further trace of events — the settling of the old
generation is a no-op: its results are never written to the published
state. Moreover the only step that changes the published state at all is
the settling of a non-aborted generation (the continuation running after
all of that query's fan-out tasks settled). -/
theorem search_cancellation (s : SearchSession) (g : Nat) (es : List SearchEvent)
    (res : List Movie) (h : s.current = some g) :
    searchStep (searchRun (searchStep s .start) es) (.settle g res)
      = searchRun (searchStep s .start) es ∧
    (∀ (t : SearchSession) (e : SearchEvent),
      ¬ (searchStep t e).published = t.published →
      ∃ g' rs, e = .settle g' rs ∧ g' ∉ t.aborted ∧
        (searchStep t e).published = some (g', rs)) := by
  constructor
  · have hstart : g ∈ (searchStep s .start).aborted := by
      simp [searchStep, h]
    have habort : g ∈ (searchRun (searchStep s .start) es).aborted :=
      searchRun_aborted_mono es _ hstart
    show (if g ∈ (searchRun (searchStep s .start) es).aborted then
        searchRun (searchStep s .start) es
      else { searchRun (searchStep s .start) es with published := some (g, res) })
      = searchRun (searchStep s .start) es
    rw [if_pos habort]
  · intro t e hpub
    cases e with
    | start =>
      exfalso
      apply hpub
      cases hc : t.current with
      | some g' => simp [searchStep, hc]
      | none => simp [searchStep, hc]
    | settle g' rs =>
      by_cases ha : g' ∈ t.aborted
      · exact absurd (by simp [searchStep, ha]) hpub
      · exact ⟨g', rs, rfl, ha, by simp [searchStep, ha]⟩

/-- Witness for C8: query generation 0 is aborted by the start of
generation 1; even after generation 1 settles, a late settle of
generation 0 does not change the published state. -/
theorem search_cancellation_witness :
    searchStep
      (searchRun (searchStep ⟨some 0, [], none⟩ .start)
        [.settle 1 [demoMatch]])
      (.settle 0 [demoCanonical])
      = searchRun (searchStep ⟨some 0, [], none⟩ .start) [.settle 1 [demoMatch]] :=
  (search_cancellation ⟨some 0, [], none⟩ 0 [.settle 1 [demoMatch]]
    [demoCanonical] (by decide)).1

end StreamHub
